import Mathlib

/-!
Verification of the import-categorization and comment-enforcement engine
implemented in `src/rules/import-category.ts`.

The engine is embedded shallowly:
* an import statement is a record of its leading comment tokens (raw text,
  one full line each), its literal source path, and its source text;
* the configuration mirrors the rule options after pattern compilation:
  each pattern is a compiled matcher `String → Bool`;
* JavaScript string operations (`trim`, the `^\/\/\s*` style replacements,
  the `/^import\s+type\s+/` test) are modelled over `List Char`, with `\s`
  restricted to ASCII whitespace;
* diagnostics carry the anchor import index (and comment index for
  duplicate-comment reports) together with the message data the rule
  interpolates;
* fixes are modelled structurally (insert a comment line directly before
an import / remove a comment line), and a rendering function ties the
  structural model back to the byte-level text edits of the rule.
-/

namespace ImportCategory

/-! ### JavaScript string primitives -/

/-- ASCII whitespace, modelling the characters matched by `\s` and removed
by `String.prototype.trim`. -/
def jsWsChar (c : Char) : Bool :=
  c == ' ' || c == '\t' || c == '\n' || c == '\r' || c == '\x0b' || c == '\x0c'

/-- Drop whitespace from the right end of a character list. -/
def dropRightWs (l : List Char) : List Char :=
  (l.reverse.dropWhile jsWsChar).reverse

/-- Both-ends whitespace trimming over characters, modelling `trim()`. -/
def trimChars (l : List Char) : List Char :=
  dropRightWs (l.dropWhile jsWsChar)

/-- Model of `s.trim()`. -/
def jsTrim (s : String) : String :=
  ⟨trimChars s.data⟩

/-- Model of `s.startsWith(p)`. -/
def strStarts (s p : String) : Bool :=
  p.data.isPrefixOf s.data

/-- Model of `s.endsWith(p)`. -/
def strEnds (s p : String) : Bool :=
  p.data.isSuffixOf s.data

/-- Drop the first `n` characters of a string. -/
def strDrop (s : String) (n : Nat) : String :=
  ⟨s.data.drop n⟩

/-- Drop the last `n` characters of a string. -/
def strDropRight (s : String) (n : Nat) : String :=
  ⟨s.data.take (s.data.length - n)⟩

/-- Model of `s.replace(/^\/\/\s*/, '')`: remove a leading line-comment
marker together with the whitespace that follows it. -/
def stripLineMarker (s : String) : String :=
  if strStarts s "//" then ⟨(s.data.drop 2).dropWhile jsWsChar⟩ else s

/-- Model of `s.replace(/^\/\*\s*/, '')`. -/
def stripBlockOpen (s : String) : String :=
  if strStarts s "/*" then ⟨(s.data.drop 2).dropWhile jsWsChar⟩ else s

/-- Model of `s.replace(/\s*\*\/$/, '')`. -/
def stripBlockClose (s : String) : String :=
  if strEnds s "*/" then ⟨dropRightWs (s.data.take (s.data.length - 2))⟩ else s

/-! ### Data model -/

/-- A category after pattern compilation (`categoriesWithRegex` in the
source): the canonical comment text, the compiled path matchers, and the
numeric priority order. -/
structure CompiledCategory where
  comment : String
  patterns : List (String → Bool)
  order : Int

/-- Comment rendering style. -/
inductive CommentStyle where
  | line
  | block
deriving DecidableEq

/-- The rule options after destructuring in `create` (patterns already
compiled). -/
structure Config where
  categories : List CompiledCategory
  typeImportsCategory : Option String
  enforceOrder : Bool
  enforceComments : Bool
  commentStyle : CommentStyle

/-- One import statement as handed to the engine by the host: the raw texts
of the comment lines immediately preceding it, its literal source path, and
its own source text.  Each comment occupies one full line. -/
structure ImportStmt where
  leading : List String
  path : String
  text : String
deriving DecidableEq, Repr

/-- The three diagnostics the rule can report, with their anchor (import
index, plus comment index for duplicates) and message data. -/
inductive Diagnostic where
  | missingComment (importIdx : Nat) (category : String)
  | duplicateComment (importIdx : Nat) (commentIdx : Nat) (category : String)
  | wrongOrder (importIdx : Nat) (importPath : String) (category : String)
      (expectedOrder : Int) (actualOrder : Int)
deriving DecidableEq, Repr

/-- The comment token value the host reports for a raw comment line: the
text between the comment markers (`value` of an ESLint comment token). -/
def commentValue (raw : String) : String :=
  if strStarts raw "//" then strDrop raw 2
  else if strStarts raw "/*" && strEnds raw "*/" && decide (4 ≤ raw.data.length) then
    strDropRight (strDrop raw 2) 2
  else raw

/-! ### Classifier -/

/-- Consume an exact literal from the front of a character list. -/
def dropLit : List Char → List Char → Option (List Char)
  | [], l => some l
  | _ :: _, [] => none
  | c :: cs, x :: xs => if x = c then dropLit cs xs else none

/-- Model of `/^import\s+type\s+/.test(text)`: the literal `import`, at
least one whitespace character (the run taken greedily, which is equivalent
because `t` is not whitespace), the literal `type`, at least one whitespace
character. -/
def importTypeTest (s : String) : Bool :=
  match dropLit ['i', 'm', 'p', 'o', 'r', 't'] s.data with
  | none => false
  | some r =>
    match r with
    | [] => false
    | c :: r2 =>
      if jsWsChar c then
        match dropLit ['t', 'y', 'p', 'e'] (r2.dropWhile jsWsChar) with
        | none => false
        | some r3 =>
          match r3 with
          | [] => false
          | c2 :: _ => jsWsChar c2
      else false

/-- `isTypeOnlyImport` from the source: run the regular-expression test on
the import statement's source text. -/
def isTypeOnlyImport (st : ImportStmt) : Bool :=
  importTypeTest st.text

/-- The `for (const category of categoriesWithRegex)` loop of
`getCategoryForImport`: first category, in declaration order, one of whose
patterns matches the path. -/
def findCategory : List CompiledCategory → String → Option (String × Int)
  | [], _ => none
  | c :: rest, path =>
    if c.patterns.any (fun p => p path) then some (c.comment, c.order)
    else findCategory rest path

/-- `getCategoryForImport` from the source.  The `isTypeOnly &&
typeImportsCategory` guard uses JavaScript truthiness, so the type branch is
taken only when the configured label is a non-empty string. -/
def getCategoryForImport (cfg : Config) (importPath : String) (isTypeOnly : Bool) :
    Option (String × Int) :=
  match cfg.typeImportsCategory with
  | some t =>
    if isTypeOnly && !(t == "") then
      match cfg.categories.find? (fun c => c.comment == t) with
      | some c => some (c.comment, c.order)
      | none => some (t, 0)
    else findCategory cfg.categories importPath
  | none => findCategory cfg.categories importPath

/-- Category resolution of one import statement. -/
def classifyStmt (cfg : Config) (st : ImportStmt) : Option (String × Int) :=
  getCategoryForImport cfg st.path (isTypeOnlyImport st)

/-! ### Grouper -/

/-- `Map.set`/push step: append an import index to its category's bucket,
creating the bucket at the end on first appearance (JavaScript `Map`
iteration follows insertion order). -/
def addToGroup : List (String × List Nat) → String → Nat → List (String × List Nat)
  | [], key, i => [(key, [i])]
  | (k, v) :: rest, key, i =>
    if k = key then (k, v ++ [i]) :: rest else (k, v) :: addToGroup rest key i

/-- The `imports.forEach` loop of `groupImportsByCategory`, carrying the
index of the current import. -/
def groupAux (cfg : Config) (acc : List (String × List Nat)) (i : Nat) :
    List ImportStmt → List (String × List Nat)
  | [] => acc
  | st :: rest =>
    match classifyStmt cfg st with
    | some (c, _) => groupAux cfg (addToGroup acc c i) (i + 1) rest
    | none => groupAux cfg acc (i + 1) rest

/-- `groupImportsByCategory` from the source. -/
def groupImportsByCategory (cfg : Config) (file : List ImportStmt) :
    List (String × List Nat) :=
  groupAux cfg [] 0 file

/-- `groups.get(label)`, returning the empty bucket when absent. -/
def lookupGroup : List (String × List Nat) → String → List Nat
  | [], _ => []
  | (k, v) :: rest, label => if k = label then v else lookupGroup rest label

/-- `Array.from(groups.keys())`. -/
def keysOf (groups : List (String × List Nat)) : List String :=
  groups.map Prod.fst

/-! ### Comment auditor -/

/-- `formatComment` from the source. -/
def formatComment (cfg : Config) (comment : String) : String :=
  match cfg.commentStyle with
  | .block => "/* " ++ stripLineMarker comment ++ " */"
  | .line => if strStarts comment "//" then comment else "// " ++ comment

/-- The sort key of the `sortedCategories` comparator: the category's order
if its label is configured, else 0 for the type-imports label, else 999. -/
def orderKey (cfg : Config) (label : String) : Int :=
  match cfg.categories.find? (fun c => c.comment == label) with
  | some c => c.order
  | none => if some label = cfg.typeImportsCategory then 0 else 999

/-- Stable insertion of a label into a key-sorted list: keep earlier labels
whose key is strictly smaller. -/
def insertByKey (key : String → Int) (x : String) : List String → List String
  | [] => [x]
  | y :: ys => if key y < key x then y :: insertByKey key x ys else x :: y :: ys

/-- Stable sort by key, modelling `Array.prototype.sort` with the comparator
`(a, b) => orderA - orderB` (stable per the ECMAScript specification). -/
def sortByKey (key : String → Int) : List String → List String
  | [] => []
  | x :: xs => insertByKey key x (sortByKey key xs)

/-- The `sortedCategories` value of `checkCategoryComments`. -/
def sortedKeysOf (cfg : Config) (file : List ImportStmt) : List String :=
  sortByKey (orderKey cfg) (keysOf (groupImportsByCategory cfg file))

/-- `category.replace(/^\/\/\s*/, '').replace(/^\/\*\s*/, '').replace(/\s*\*\/$/, '').trim()`. -/
def categoryText (label : String) : String :=
  jsTrim (stripBlockClose (stripBlockOpen (stripLineMarker label)))

/-- The comparison applied to each candidate comment token value in
`checkCategoryComments` (both for the missing-comment and duplicate-comment
checks). -/
def matchesLabel (label : String) (value : String) : Bool :=
  jsTrim value == categoryText label || jsTrim value == jsTrim (stripLineMarker label)

/-- Leading comment tokens of import `i`, as the host's
`getCommentsBefore` reports them. -/
def leadingAt (file : List ImportStmt) (i : Nat) : List String :=
  match file.get? i with
  | some st => st.leading
  | none => []

/-- Source text of import `i`. -/
def textAt (file : List ImportStmt) (i : Nat) : String :=
  match file.get? i with
  | some st => st.text
  | none => ""

/-- Pair each element with its position, starting at `n`. -/
def enumFromN (n : Nat) : List α → List (Nat × α)
  | [] => []
  | a :: l => (n, a) :: enumFromN (n + 1) l

/-- The duplicate-comment scan over the leading comments of one
non-first group member. -/
def dupsAt (file : List ImportStmt) (label : String) (j : Nat) : List Diagnostic :=
  (enumFromN 0 (leadingAt file j)).filterMap fun kc =>
    if matchesLabel label (commentValue kc.2) then
      some (.duplicateComment j kc.1 label)
    else none

/-- The body of the `sortedCategories.forEach` loop: audit one category
group. -/
def perCategory (file : List ImportStmt) (groups : List (String × List Nat))
    (label : String) : List Diagnostic :=
  match lookupGroup groups label with
  | [] => []
  | first :: rest =>
    (if (leadingAt file first).any (fun c => matchesLabel label (commentValue c)) then
      []
    else [.missingComment first label])
    ++ rest.flatMap (dupsAt file label)

/-- `checkCategoryComments` from the source. -/
def checkCategoryComments (cfg : Config) (file : List ImportStmt) : List Diagnostic :=
  if cfg.enforceComments then
    (sortedKeysOf cfg file).flatMap
      (perCategory file (groupImportsByCategory cfg file))
  else []

/-! ### Order checker -/

/-- The `imports.forEach` loop of `checkImportOrder`, carrying the current
ratchet value `expected` and the index of the current import. -/
def orderAux (cfg : Config) (expected : Int) (i : Nat) :
    List ImportStmt → List Diagnostic
  | [] => []
  | st :: rest =>
    match classifyStmt cfg st with
    | some (c, o) =>
      if o < expected then
        .wrongOrder i st.path c expected o :: orderAux cfg expected (i + 1) rest
      else orderAux cfg o (i + 1) rest
    | none => orderAux cfg expected (i + 1) rest

/-- `checkImportOrder` from the source (ratchet initialized to 0). -/
def checkImportOrder (cfg : Config) (file : List ImportStmt) : List Diagnostic :=
  if cfg.enforceOrder then orderAux cfg 0 0 file else []

/-- The `Program` handler: on a file with at least one import, report order
violations and then comment violations. -/
def runRule (cfg : Config) (file : List ImportStmt) : List Diagnostic :=
  if file = [] then []
  else checkImportOrder cfg file ++ checkCategoryComments cfg file

/-! ### Fix application

The missing-comment fix is `fixer.insertTextBefore(firstImport,
formatted ++ "\n")`: the text lands at the import's start offset, i.e.
directly after its existing leading comments.  The duplicate-comment fix is
`fixer.removeRange([comment.range[0], comment.range[1] + 1])`: the comment's
full line, range plus trailing line break, disappears.  Structurally the
first appends a comment line at the end of the anchor import's leading
block and the second deletes the flagged comment line. -/

/-- Does the diagnostic list carry a duplicate-comment fix for comment `k`
of import `i`? -/
def isDupFixAt (d : Diagnostic) (i k : Nat) : Bool :=
  match d with
  | .duplicateComment j k' _ => j == i && k' == k
  | _ => false

/-- The comment lines inserted directly before import `i` by the
missing-comment fixes in `diags`. -/
def insertsFor (cfg : Config) (diags : List Diagnostic) (i : Nat) : List String :=
  diags.filterMap fun d =>
    match d with
    | .missingComment j label => if j = i then some (formatComment cfg label) else none
    | _ => none

/-- Apply every fix in `diags` that touches import `i`. -/
def fixStmt (cfg : Config) (diags : List Diagnostic) (i : Nat) (st : ImportStmt) :
    ImportStmt :=
  { st with
    leading :=
      ((enumFromN 0 st.leading).filter
          (fun kc => !(diags.any (isDupFixAt · i kc.1)))).map Prod.snd
      ++ insertsFor cfg diags i }

/-- Apply every fix in `diags` to every import, threading the index. -/
def applyFixesAux (cfg : Config) (diags : List Diagnostic) (i : Nat) :
    List ImportStmt → List ImportStmt
  | [] => []
  | st :: rest => fixStmt cfg diags i st :: applyFixesAux cfg diags (i + 1) rest

/-- Apply every fix emitted by one engine run exactly once. -/
def applyAllFixes (cfg : Config) (file : List ImportStmt) : List ImportStmt :=
  applyFixesAux cfg (runRule cfg file) 0 file

/-! ### Rendering: from the structural model back to file bytes -/

/-- One comment line of source text. -/
def renderComment (raw : String) : String := raw ++ "\n"

/-- Concatenate rendered fragments. -/
def strJoin : List String → String
  | [] => ""
  | s :: rest => s ++ strJoin rest

/-- The bytes of one import statement together with its leading comment
lines. -/
def renderStmt (st : ImportStmt) : String :=
  strJoin (st.leading.map renderComment) ++ st.text ++ "\n"

/-- The bytes of the whole file. -/
def renderFile (file : List ImportStmt) : String :=
  strJoin (file.map renderStmt)

/-- The file in which import `i` additionally carries comment line `c` at
the end of its leading block, i.e. directly above the import. -/
def appendLeadingAt (c : String) : Nat → List ImportStmt → List ImportStmt
  | _, [] => []
  | 0, st :: rest => { st with leading := st.leading ++ [c] } :: rest
  | n + 1, st :: rest => st :: appendLeadingAt c n rest

/-- Remove element `k` of a list. -/
def removeIdx (k : Nat) (l : List α) : List α :=
  l.take k ++ l.drop (k + 1)

/-- The file in which comment line `k` of import `j` has been removed. -/
def removeLeadingAt (k : Nat) : Nat → List ImportStmt → List ImportStmt
  | _, [] => []
  | 0, st :: rest => { st with leading := removeIdx k st.leading } :: rest
  | n + 1, st :: rest => st :: removeLeadingAt k n rest

/-- The bytes produced by `fixer.insertTextBefore(import i, txt)`: the text
is spliced in at the import's start offset, after its leading comments. -/
def insertTextBeforeRender (file : List ImportStmt) (i : Nat) (txt : String) : String :=
  strJoin ((file.take i).map renderStmt)
  ++ strJoin ((leadingAt file i).map renderComment) ++ txt ++ textAt file i ++ "\n"
  ++ strJoin ((file.drop (i + 1)).map renderStmt)

/-! ### Specification-side definitions -/

/-- The ratchet value after scanning a list of imports, starting from `E`
(the source updates `expectedOrder` to `category.order` whenever it is not
smaller, which is exactly a running maximum). -/
def ratchetAfter (cfg : Config) (E : Int) : List ImportStmt → Int
  | [] => E
  | st :: rest =>
    match classifyStmt cfg st with
    | some (_, o) => ratchetAfter cfg (max E o) rest
    | none => ratchetAfter cfg E rest

/-- Indices (starting from `i`) of the imports resolving to category
`label`. -/
def groupIdxFrom (cfg : Config) (label : String) (i : Nat) :
    List ImportStmt → List Nat
  | [] => []
  | st :: rest =>
    match classifyStmt cfg st with
    | some (c, _) =>
      if c = label then i :: groupIdxFrom cfg label (i + 1) rest
      else groupIdxFrom cfg label (i + 1) rest
    | none => groupIdxFrom cfg label (i + 1) rest

/-- Modelled from the spec: declaration-order classification as the claim
states it, via `find?` over the configured categories. -/
def classifySpec (cfg : Config) (path : String) : Option (String × Int) :=
  (cfg.categories.find? (fun c => c.patterns.any (fun p => p path))).map
    (fun c => (c.comment, c.order))

/-- The property "the source text begins with `import`, whitespace, `type`,
whitespace". -/
def beginsImportType (s : String) : Prop :=
  ∃ w1 w2 rest,
    s.data
      = 'i' :: 'm' :: 'p' :: 'o' :: 'r' :: 't'
        :: (w1 ++ ('t' :: 'y' :: 'p' :: 'e' :: (w2 ++ rest)))
    ∧ w1 ≠ [] ∧ (∀ c ∈ w1, jsWsChar c = true)
    ∧ w2 ≠ [] ∧ (∀ c ∈ w2, jsWsChar c = true)

/-- The import index a diagnostic is anchored at. -/
def anchorIdx : Diagnostic → Nat
  | .missingComment i _ => i
  | .duplicateComment j _ _ => j
  | .wrongOrder i _ _ _ _ => i

/-- Is the diagnostic a `WrongOrder` report? -/
def isWrongOrder : Diagnostic → Bool
  | .wrongOrder _ _ _ _ _ => true
  | _ => false

/-- Is the diagnostic a `MissingComment` report for the given category? -/
def isMissingFor (label : String) : Diagnostic → Bool
  | .missingComment _ l => l == label
  | _ => false

/-! ### Concrete configurations and files for the scenarios -/

/-- Compiled matcher for the pattern `^[a-z]`. -/
def patLowerAlpha (s : String) : Bool :=
  match s.data with
  | c :: _ => 'a' ≤ c && c ≤ 'z'
  | [] => false

/-- Compiled matcher for the pattern `^\.`. -/
def patDot (s : String) : Bool :=
  match s.data with
  | c :: _ => c == '.'
  | [] => false

/-- Compiled matcher for the pattern `^n`. -/
def patN (s : String) : Bool :=
  match s.data with
  | c :: _ => c == 'n'
  | [] => false

/-- Compiled matcher for the pattern `^react`. -/
def patReact (s : String) : Bool :=
  strStarts s "react"

/-- Scenario A configuration: External (order 1, `^[a-z]`) then Relative
(order 2, `^\.`). -/
def cfgA : Config :=
  { categories :=
      [ { comment := "// External", patterns := [patLowerAlpha], order := 1 }
      , { comment := "// Relative", patterns := [patDot], order := 2 } ]
  , typeImportsCategory := none
  , enforceOrder := true
  , enforceComments := true
  , commentStyle := .line }

/-- Scenario A file: `./a` then `lodash`, no comments. -/
def fileA : List ImportStmt :=
  [ { leading := [], path := "./a", text := "import a from x" }
  , { leading := [], path := "lodash", text := "import l from y" } ]

/-- A configuration with a single negative-order category. -/
def cfgNeg : Config :=
  { categories := [{ comment := "// Neg", patterns := [patN], order := -1 }]
  , typeImportsCategory := none
  , enforceOrder := true
  , enforceComments := true
  , commentStyle := .line }

/-- A file whose single import matches the negative-order category. -/
def fileNeg : List ImportStmt :=
  [ { leading := [], path := "n", text := "import n from n" } ]

/-- Scenario B configuration: an external category plus the type-imports
label `// Types` (not itself in the category list). -/
def cfgB : Config :=
  { categories :=
      [ { comment := "// External", patterns := [patLowerAlpha], order := 1 } ]
  , typeImportsCategory := some "// Types"
  , enforceOrder := true
  , enforceComments := true
  , commentStyle := .line }

/-- A configuration whose type-imports label is the empty string:
non-null, yet falsy in JavaScript. -/
def cfgEmptyType : Config :=
  { categories :=
      [ { comment := "// External", patterns := [patLowerAlpha], order := 1 } ]
  , typeImportsCategory := some ""
  , enforceOrder := true
  , enforceComments := true
  , commentStyle := .line }

/-- A configuration in which the type category itself carries patterns. -/
def cfgTypePat : Config :=
  { categories :=
      [ { comment := "// Types", patterns := [patReact], order := 0 } ]
  , typeImportsCategory := some "// Types"
  , enforceOrder := true
  , enforceComments := true
  , commentStyle := .line }

/-- A configuration with a negative-order category next to the synthetic
type category. -/
def cfgNegType : Config :=
  { categories := [{ comment := "// Neg", patterns := [patN], order := -1 }]
  , typeImportsCategory := some "// Types"
  , enforceOrder := true
  , enforceComments := true
  , commentStyle := .line }

/-- A file with one `// Neg` import followed by one type-only import. -/
def fileNegType : List ImportStmt :=
  [ { leading := [], path := "n", text := "import n from n" }
  , { leading := [], path := "x", text := "import type \x7bX\x7d from x" } ]

/-- Scenario B configuration with order enforcement turned off. -/
def cfgBNoOrder : Config :=
  { categories :=
      [ { comment := "// External", patterns := [patLowerAlpha], order := 1 } ]
  , typeImportsCategory := some "// Types"
  , enforceOrder := false
  , enforceComments := true
  , commentStyle := .line }

/-- The type-only import statement used in the mixed files below. -/
def stmtTypeOnlyX : ImportStmt :=
  ⟨[], "x", "import type \x7bX\x7d from x"⟩

/-- A file with one external import followed by one type-only import. -/
def fileExtType : List ImportStmt :=
  [ { leading := [], path := "lodash", text := "import l from y" }
  , { leading := [], path := "x", text := "import type \x7bX\x7d from x" } ]

/-- A single uncommented external import. -/
def fileExtOnly : List ImportStmt :=
  [ { leading := [], path := "lodash", text := "import l from y" } ]

/-- Two external imports, each preceded by the category label comment. -/
def fileDupExt : List ImportStmt :=
  [ { leading := ["// External"], path := "lodash", text := "import l from y" }
  , { leading := ["// External"], path := "axios", text := "import a from z" } ]

/-- The second import of Scenario A's file. -/
def stmtLodash : ImportStmt :=
  { leading := [], path := "lodash", text := "import l from y" }

/-- A type-only import statement (whole-statement `import type` form). -/
def stmtTypeOnly : ImportStmt :=
  { leading := [], path := "react", text := "import type \x7bX\x7d from react" }

/-- An import statement using an inline type specifier. -/
def stmtInlineType : ImportStmt :=
  { leading := [], path := "react", text := "import \x7b type X \x7d from react" }

/-- A file whose second import matches no configured pattern under
`cfgA` (path `~x`). -/
def fileWithUnmatched : List ImportStmt :=
  [ { leading := [], path := "lodash", text := "import l from y" }
  , { leading := [], path := "~x", text := "import u from w" } ]

/-! ### Lemmas: strings and whitespace -/

theorem strExt {a b : String} (h : a.data = b.data) : a = b := by
  cases a
  cases b
  exact congrArg String.mk h

theorem dropWhile_ws_all {a : List Char} (l : List Char)
    (h : ∀ c ∈ a, jsWsChar c = true) :
    (a ++ l).dropWhile jsWsChar = l.dropWhile jsWsChar := by
  induction a with
  | nil => rfl
  | cons c a ih =>
    have hc : jsWsChar c = true := h c (List.mem_cons_self c a)
    simp only [List.cons_append, List.dropWhile_cons, hc, if_true]
    exact ih fun x hx => h x (List.mem_cons_of_mem c hx)

theorem dropWhile_ws_cons {c : Char} (l : List Char) (h : jsWsChar c = true) :
    (c :: l).dropWhile jsWsChar = l.dropWhile jsWsChar := by
  simp [List.dropWhile_cons, h]

theorem dropWhile_ws_idem (l : List Char) :
    (l.dropWhile jsWsChar).dropWhile jsWsChar = l.dropWhile jsWsChar := by
  induction l with
  | nil => rfl
  | cons c l ih =>
    by_cases hc : jsWsChar c = true
    · simp [List.dropWhile_cons, hc, ih]
    · simp [List.dropWhile_cons, hc]

theorem dropRightWs_append_ws {c : Char} (l : List Char) (h : jsWsChar c = true) :
    dropRightWs (l ++ [c]) = dropRightWs l := by
  unfold dropRightWs
  rw [List.reverse_append, List.reverse_singleton, List.singleton_append,
    dropWhile_ws_cons _ h]

theorem trimChars_dropWhile (l : List Char) :
    trimChars (l.dropWhile jsWsChar) = trimChars l := by
  unfold trimChars
  rw [dropWhile_ws_idem]

theorem trimChars_cons_ws {c : Char} (l : List Char) (h : jsWsChar c = true) :
    trimChars (c :: l) = trimChars l := by
  unfold trimChars
  rw [dropWhile_ws_cons _ h]

theorem trimChars_append_ws {c : Char} (l : List Char) (h : jsWsChar c = true) :
    trimChars (l ++ [c]) = trimChars l := by
  unfold trimChars
  rw [List.dropWhile_append]
  by_cases he : (l.dropWhile jsWsChar).isEmpty = true
  · simp only [he, if_true]
    rw [List.isEmpty_iff] at he
    rw [he]
    simp [List.dropWhile_cons, h, dropRightWs]
  · simp only [he, if_false]
    exact dropRightWs_append_ws _ h

/-! ### Lemmas: the type-only import test -/

theorem dropLit_eq_some {lit l r : List Char} :
    dropLit lit l = some r ↔ l = lit ++ r := by
  induction lit generalizing l with
  | nil =>
    simp only [dropLit, Option.some.injEq, List.nil_append]
  | cons c cs ih =>
    cases l with
    | nil => simp [dropLit]
    | cons x xs =>
      by_cases hx : x = c
      · subst hx
        simp only [dropLit, if_pos rfl, List.cons_append, List.cons.injEq, true_and]
        exact ih
      · simp only [dropLit, if_neg hx, List.cons_append]
        constructor
        · intro h
          exact absurd h (by simp)
        · intro h
          injection h with h1 _
          exact absurd h1 hx

theorem importTypeTest_iff (s : String) :
    importTypeTest s = true ↔ beginsImportType s := by
  constructor
  · intro h
    unfold importTypeTest at h
    split at h
    · exact absurd h (by simp)
    rename_i r h1
    split at h
    · exact absurd h (by simp)
    rename_i c r2
    split at h
    case isFalse => exact absurd h (by simp)
    rename_i hc
    split at h
    · exact absurd h (by simp)
    rename_i r3 h2
    split at h
    · exact absurd h (by simp)
    rename_i c2 rest
    refine ⟨c :: r2.takeWhile jsWsChar, [c2], rest, ?_, by simp, ?_, by simp, ?_⟩
    · rw [dropLit_eq_some.mp h1]
      have h2' := dropLit_eq_some.mp h2
      have hsplit : r2.takeWhile jsWsChar ++ r2.dropWhile jsWsChar = r2 :=
        List.takeWhile_append_dropWhile jsWsChar r2
      rw [h2'] at hsplit
      simp only [List.cons_append, List.append_assoc, List.singleton_append,
        List.nil_append] at hsplit ⊢
      rw [hsplit]
    · intro x hx
      rcases List.mem_cons.mp hx with hx | hx
      · exact hx ▸ hc
      · exact List.mem_takeWhile_imp hx
    · intro x hx
      rcases List.mem_cons.mp hx with hx | hx
      · exact hx ▸ h
      · exact absurd hx (List.not_mem_nil x)
  · rintro ⟨w1, w2, rest, hdata, hw1ne, hw1, hw2ne, hw2⟩
    rcases w1 with _ | ⟨c, w1'⟩
    · exact absurd rfl hw1ne
    rcases w2 with _ | ⟨c2, w2'⟩
    · exact absurd rfl hw2ne
    have hc : jsWsChar c = true := hw1 c (List.mem_cons_self c w1')
    have hc2 : jsWsChar c2 = true := hw2 c2 (List.mem_cons_self c2 w2')
    have hw1' : ∀ x ∈ w1', jsWsChar x = true :=
      fun x hx => hw1 x (List.mem_cons_of_mem c hx)
    unfold importTypeTest
    have h1 : dropLit ['i', 'm', 'p', 'o', 'r', 't'] s.data
        = some (c :: (w1' ++ ('t' :: 'y' :: 'p' :: 'e' :: (c2 :: w2' ++ rest)))) := by
      rw [dropLit_eq_some, hdata]
      simp [List.append_assoc]
    rw [h1]
    simp only [if_pos hc]
    have hdw :
        (w1' ++ ('t' :: 'y' :: 'p' :: 'e' :: (c2 :: w2' ++ rest))).dropWhile jsWsChar
          = 't' :: 'y' :: 'p' :: 'e' :: (c2 :: w2' ++ rest) := by
      rw [dropWhile_ws_all _ hw1']
      simp [List.dropWhile_cons, jsWsChar]
    rw [hdw]
    have h2 : dropLit ['t', 'y', 'p', 'e']
        ('t' :: 'y' :: 'p' :: 'e' :: (c2 :: w2' ++ rest))
        = some (c2 :: (w2' ++ rest)) := by
      rw [dropLit_eq_some]
      simp
    rw [h2]
    exact hc2

/-! ### Lemmas: the order checker -/

theorem ratchetAfter_append (cfg : Config) (E : Int) (a b : List ImportStmt) :
    ratchetAfter cfg E (a ++ b) = ratchetAfter cfg (ratchetAfter cfg E a) b := by
  induction a generalizing E with
  | nil => rfl
  | cons st a ih =>
    simp only [List.cons_append, ratchetAfter]
    cases classifyStmt cfg st with
    | none => exact ih _
    | some co => exact ih _

theorem le_ratchetAfter (cfg : Config) (E : Int) (l : List ImportStmt) :
    E ≤ ratchetAfter cfg E l := by
  induction l generalizing E with
  | nil => exact le_refl E
  | cons st l ih =>
    simp only [ratchetAfter]
    cases classifyStmt cfg st with
    | none => exact ih E
    | some co => exact le_trans (le_max_left E co.2) (ih _)

theorem ratchetAfter_cons_none (cfg : Config) (E : Int) {st : ImportStmt}
    (l : List ImportStmt) (h : classifyStmt cfg st = none) :
    ratchetAfter cfg E (st :: l) = ratchetAfter cfg E l := by
  simp only [ratchetAfter, h]

theorem ratchetAfter_cons_some (cfg : Config) (E : Int) {st : ImportStmt}
    (l : List ImportStmt) {c : String} {o : Int}
    (h : classifyStmt cfg st = some (c, o)) :
    ratchetAfter cfg E (st :: l) = ratchetAfter cfg (max E o) l := by
  simp only [ratchetAfter, h]

theorem order_le_ratchetAfter (cfg : Config) (E : Int) {l : List ImportStmt}
    {st : ImportStmt} {c : String} {o : Int} (hmem : st ∈ l)
    (hcl : classifyStmt cfg st = some (c, o)) :
    o ≤ ratchetAfter cfg E l := by
  induction l generalizing E with
  | nil => exact absurd hmem (List.not_mem_nil st)
  | cons st' l ih =>
    rcases List.mem_cons.mp hmem with h | h
    · subst h
      rw [ratchetAfter_cons_some cfg E l hcl]
      exact le_trans (le_max_right E o) (le_ratchetAfter cfg _ l)
    · rcases hcl' : classifyStmt cfg st' with _ | co
      · rw [ratchetAfter_cons_none cfg E l hcl']
        exact ih _ h
      · rw [ratchetAfter_cons_some cfg E l hcl']
        exact ih _ h

theorem ratchetAfter_take_mono (cfg : Config) (E : Int) (l : List ImportStmt)
    {i j : Nat} (hij : i ≤ j) :
    ratchetAfter cfg E (l.take i) ≤ ratchetAfter cfg E (l.take j) := by
  have hsplit : l.take j = l.take i ++ (l.drop i).take (j - i) := by
    conv_lhs => rw [show j = i + (j - i) from (Nat.add_sub_cancel' hij).symm]
    rw [List.take_add]
  rw [hsplit, ratchetAfter_append]
  exact le_ratchetAfter cfg _ _

theorem orderAux_cons_none (cfg : Config) (E : Int) (n : Nat) {st : ImportStmt}
    (l : List ImportStmt) (h : classifyStmt cfg st = none) :
    orderAux cfg E n (st :: l) = orderAux cfg E (n + 1) l := by
  simp only [orderAux, h]

theorem orderAux_cons_viol (cfg : Config) (E : Int) (n : Nat) {st : ImportStmt}
    (l : List ImportStmt) {c : String} {o : Int}
    (h : classifyStmt cfg st = some (c, o)) (hlt : o < E) :
    orderAux cfg E n (st :: l)
      = Diagnostic.wrongOrder n st.path c E o :: orderAux cfg E (n + 1) l := by
  simp only [orderAux, h, if_pos hlt]

theorem orderAux_cons_ok (cfg : Config) (E : Int) (n : Nat) {st : ImportStmt}
    (l : List ImportStmt) {c : String} {o : Int}
    (h : classifyStmt cfg st = some (c, o)) (hlt : ¬ o < E) :
    orderAux cfg E n (st :: l) = orderAux cfg o (n + 1) l := by
  simp only [orderAux, h, if_neg hlt]

theorem wrongOrder_mem_orderAux (cfg : Config) (E : Int) (n : Nat)
    (l : List ImportStmt) (m : Nat) (p c : String) (e o : Int) :
    Diagnostic.wrongOrder m p c e o ∈ orderAux cfg E n l
      ↔ ∃ j st, m = n + j ∧ l.get? j = some st ∧ st.path = p
          ∧ classifyStmt cfg st = some (c, o)
          ∧ e = ratchetAfter cfg E (l.take j) ∧ o < e := by
  induction l generalizing E n with
  | nil =>
    simp [orderAux]
  | cons st rest ih =>
    rcases hcl : classifyStmt cfg st with _ | ⟨c', o'⟩
    · rw [orderAux_cons_none cfg E n rest hcl, ih]
      constructor
      · rintro ⟨j, st', hm, hget, hp, hcl', he, ho⟩
        refine ⟨j + 1, st', by omega, by simpa using hget, hp, hcl', ?_, ho⟩
        rw [List.take_succ_cons, ratchetAfter_cons_none cfg E _ hcl]
        exact he
      · rintro ⟨j, st', hm, hget, hp, hcl', he, ho⟩
        cases j with
        | zero =>
          simp only [List.get?] at hget
          injection hget with hget
          subst hget
          rw [hcl'] at hcl
          cases hcl
        | succ j' =>
          refine ⟨j', st', by omega, by simpa using hget, hp, hcl', ?_, ho⟩
          rw [List.take_succ_cons, ratchetAfter_cons_none cfg E _ hcl] at he
          exact he
    · by_cases hlt : o' < E
      · rw [orderAux_cons_viol cfg E n rest hcl hlt]
        simp only [List.mem_cons, ih]
        have hmax : max E o' = E := max_eq_left (le_of_lt hlt)
        constructor
        · rintro (hhead | ⟨j, st', hm, hget, hp, hcl', he, ho⟩)
          · injection hhead with h1 h2 h3 h4 h5
            exact ⟨0, st, by omega, rfl, h2.symm, by rw [hcl, h3, h5],
              by rw [h4]; rfl, by rw [h4, h5]; exact hlt⟩
          · refine ⟨j + 1, st', by omega, by simpa using hget, hp, hcl', ?_, ho⟩
            rw [List.take_succ_cons, ratchetAfter_cons_some cfg E _ hcl, hmax]
            exact he
        · rintro ⟨j, st', hm, hget, hp, hcl', he, ho⟩
          cases j with
          | zero =>
            simp only [List.get?] at hget
            injection hget with hget
            subst hget
            rw [hcl'] at hcl
            injection hcl with hcl
            injection hcl with hc ho'
            subst hc
            subst ho'
            simp only [List.take_zero, ratchetAfter] at he
            subst he
            subst hp
            left
            rw [Nat.add_zero] at hm
            rw [hm]
          | succ j' =>
            right
            refine ⟨j', st', by omega, by simpa using hget, hp, hcl', ?_, ho⟩
            rw [List.take_succ_cons, ratchetAfter_cons_some cfg E _ hcl, hmax] at he
            exact he
      · rw [orderAux_cons_ok cfg E n rest hcl hlt, ih]
        have hmax : max E o' = o' := max_eq_right (le_of_not_lt hlt)
        constructor
        · rintro ⟨j, st', hm, hget, hp, hcl', he, ho⟩
          refine ⟨j + 1, st', by omega, by simpa using hget, hp, hcl', ?_, ho⟩
          rw [List.take_succ_cons, ratchetAfter_cons_some cfg E _ hcl, hmax]
          exact he
        · rintro ⟨j, st', hm, hget, hp, hcl', he, ho⟩
          cases j with
          | zero =>
            simp only [List.get?] at hget
            injection hget with hget
            subst hget
            rw [hcl'] at hcl
            injection hcl with hcl
            injection hcl with hc ho'
            subst ho'
            simp only [List.take_zero, ratchetAfter] at he
            subst he
            exact absurd ho hlt
          | succ j' =>
            refine ⟨j', st', by omega, by simpa using hget, hp, hcl', ?_, ho⟩
            rw [List.take_succ_cons, ratchetAfter_cons_some cfg E _ hcl, hmax] at he
            exact he

theorem orderAux_kind (cfg : Config) (E : Int) (n : Nat) (l : List ImportStmt) :
    ∀ d ∈ orderAux cfg E n l, ∃ i p c e o, d = Diagnostic.wrongOrder i p c e o := by
  induction l generalizing E n with
  | nil => intro d hd; exact absurd hd (List.not_mem_nil d)
  | cons st rest ih =>
    intro d hd
    rcases hcl : classifyStmt cfg st with _ | ⟨c', o'⟩
    · rw [orderAux_cons_none cfg E n rest hcl] at hd
      exact ih _ _ d hd
    · by_cases hlt : o' < E
      · rw [orderAux_cons_viol cfg E n rest hcl hlt] at hd
        rcases List.mem_cons.mp hd with h | h
        · exact ⟨n, st.path, c', E, o', h⟩
        · exact ih _ _ d h
      · rw [orderAux_cons_ok cfg E n rest hcl hlt] at hd
        exact ih _ _ d hd

/-! ### Lemmas: the grouper -/

theorem lookupGroup_addToGroup (g : List (String × List Nat)) (key : String)
    (i : Nat) (label : String) :
    lookupGroup (addToGroup g key i) label
      = lookupGroup g label ++ (if label = key then [i] else []) := by
  induction g with
  | nil =>
    by_cases h : label = key
    · subst h
      simp [addToGroup, lookupGroup]
    · have h' : ¬ key = label := fun hc => h hc.symm
      simp [addToGroup, lookupGroup, h, h']
  | cons kv rest ih =>
    obtain ⟨k, v⟩ := kv
    by_cases hk : k = key
    · subst hk
      simp only [addToGroup, if_pos rfl]
      by_cases hl : k = label
      · subst hl
        simp [lookupGroup]
      · have hl' : ¬ label = k := fun hc => hl hc.symm
        simp [lookupGroup, hl, hl']
    · simp only [addToGroup, if_neg hk]
      by_cases hl : k = label
      · subst hl
        simp [lookupGroup, hk]
      · simp only [lookupGroup, if_neg hl]
        exact ih

theorem keysOf_addToGroup (g : List (String × List Nat)) (key : String) (i : Nat) :
    keysOf (addToGroup g key i)
      = if key ∈ keysOf g then keysOf g else keysOf g ++ [key] := by
  induction g with
  | nil => simp [addToGroup, keysOf]
  | cons kv rest ih =>
    obtain ⟨k, v⟩ := kv
    by_cases hk : k = key
    · subst hk
      simp [addToGroup, keysOf]
    · have hk' : ¬ key = k := fun hc => hk hc.symm
      have hcons : keysOf ((k, v) :: addToGroup rest key i)
          = k :: keysOf (addToGroup rest key i) := rfl
      have hcons2 : keysOf ((k, v) :: rest) = k :: keysOf rest := rfl
      have hmem : (key ∈ keysOf ((k, v) :: rest)) ↔ (key ∈ keysOf rest) := by
        rw [hcons2, List.mem_cons]
        simp [hk']
      rw [show addToGroup ((k, v) :: rest) key i
          = (k, v) :: addToGroup rest key i from by simp [addToGroup, hk]]
      rw [hcons, ih, hcons2]
      by_cases h : key ∈ keysOf rest
      · rw [if_pos h, if_pos (List.mem_cons_of_mem k h)]
      · rw [if_neg h, if_neg (fun hc =>
          (List.mem_cons.mp hc).elim (fun h1 => hk' h1) h)]
        rfl

theorem keysOf_addToGroup_nodup (g : List (String × List Nat)) (key : String)
    (i : Nat) (h : (keysOf g).Nodup) : (keysOf (addToGroup g key i)).Nodup := by
  rw [keysOf_addToGroup]
  by_cases hmem : key ∈ keysOf g
  · rw [if_pos hmem]
    exact h
  · rw [if_neg hmem]
    rw [List.nodup_append]
    exact ⟨h, List.nodup_singleton key, by
      intro a ha hb
      rw [List.mem_singleton] at hb
      subst hb
      exact hmem ha⟩

theorem lookupGroup_groupAux (cfg : Config) (acc : List (String × List Nat))
    (i : Nat) (l : List ImportStmt) (label : String) :
    lookupGroup (groupAux cfg acc i l) label
      = lookupGroup acc label ++ groupIdxFrom cfg label i l := by
  induction l generalizing acc i with
  | nil => simp [groupAux, groupIdxFrom]
  | cons st rest ih =>
    rcases hcl : classifyStmt cfg st with _ | ⟨c, o⟩
    · simp only [groupAux, hcl, groupIdxFrom]
      exact ih acc (i + 1)
    · simp only [groupAux, hcl, groupIdxFrom]
      by_cases hc : c = label
      · subst hc
        rw [if_pos rfl, ih, lookupGroup_addToGroup, if_pos rfl]
        simp
      · rw [if_neg hc, ih, lookupGroup_addToGroup, if_neg (fun h => hc h.symm)]
        simp

theorem keysOf_groupAux_nodup (cfg : Config) (acc : List (String × List Nat))
    (i : Nat) (l : List ImportStmt) (h : (keysOf acc).Nodup) :
    (keysOf (groupAux cfg acc i l)).Nodup := by
  induction l generalizing acc i with
  | nil => exact h
  | cons st rest ih =>
    rcases hcl : classifyStmt cfg st with _ | ⟨c, o⟩
    · simp only [groupAux, hcl]
      exact ih acc (i + 1) h
    · simp only [groupAux, hcl]
      exact ih _ (i + 1) (keysOf_addToGroup_nodup acc c i h)

theorem lookupGroup_groupImports (cfg : Config) (file : List ImportStmt)
    (label : String) :
    lookupGroup (groupImportsByCategory cfg file) label
      = groupIdxFrom cfg label 0 file := by
  rw [groupImportsByCategory, lookupGroup_groupAux]
  rfl

theorem keysOf_groupImports_nodup (cfg : Config) (file : List ImportStmt) :
    (keysOf (groupImportsByCategory cfg file)).Nodup :=
  keysOf_groupAux_nodup cfg [] 0 file List.nodup_nil

theorem mem_groupIdxFrom (cfg : Config) (label : String) (i : Nat)
    (l : List ImportStmt) (j : Nat) :
    j ∈ groupIdxFrom cfg label i l
      ↔ ∃ k st o, j = i + k ∧ l.get? k = some st
          ∧ classifyStmt cfg st = some (label, o) := by
  induction l generalizing i with
  | nil => simp [groupIdxFrom]
  | cons st rest ih =>
    rcases hcl : classifyStmt cfg st with _ | ⟨c, o⟩
    · simp only [groupIdxFrom, hcl, ih]
      constructor
      · rintro ⟨k, st', o', hj, hget, hcl'⟩
        exact ⟨k + 1, st', o', by omega, by simpa using hget, hcl'⟩
      · rintro ⟨k, st', o', hj, hget, hcl'⟩
        cases k with
        | zero =>
          simp only [List.get?] at hget
          injection hget with hget
          subst hget
          rw [hcl'] at hcl
          cases hcl
        | succ k' =>
          exact ⟨k', st', o', by omega, by simpa using hget, hcl'⟩
    · simp only [groupIdxFrom, hcl]
      by_cases hc : c = label
      · subst hc
        rw [if_pos rfl]
        simp only [List.mem_cons, ih]
        constructor
        · rintro (h | ⟨k, st', o', hj, hget, hcl'⟩)
          · exact ⟨0, st, o, by omega, rfl, hcl⟩
          · exact ⟨k + 1, st', o', by omega, by simpa using hget, hcl'⟩
        · rintro ⟨k, st', o', hj, hget, hcl'⟩
          cases k with
          | zero => exact Or.inl (by omega)
          | succ k' =>
            exact Or.inr ⟨k', st', o', by omega, by simpa using hget, hcl'⟩
      · simp only [if_neg hc, ih]
        constructor
        · rintro ⟨k, st', o', hj, hget, hcl'⟩
          exact ⟨k + 1, st', o', by omega, by simpa using hget, hcl'⟩
        · rintro ⟨k, st', o', hj, hget, hcl'⟩
          cases k with
          | zero =>
            simp only [List.get?] at hget
            injection hget with hget
            subst hget
            rw [hcl'] at hcl
            injection hcl with hcl
            injection hcl with hc' ho'
            exact absurd hc'.symm hc
          | succ k' =>
            exact ⟨k', st', o', by omega, by simpa using hget, hcl'⟩

theorem groupIdxFrom_ge (cfg : Config) (label : String) (i : Nat)
    (l : List ImportStmt) {j : Nat} (h : j ∈ groupIdxFrom cfg label i l) :
    i ≤ j := by
  obtain ⟨k, st, o, hj, _, _⟩ := (mem_groupIdxFrom cfg label i l j).mp h
  omega

theorem groupIdxFrom_pairwise (cfg : Config) (label : String) (i : Nat)
    (l : List ImportStmt) :
    (groupIdxFrom cfg label i l).Pairwise (· < ·) := by
  induction l generalizing i with
  | nil => exact List.Pairwise.nil
  | cons st rest ih =>
    rcases hcl : classifyStmt cfg st with _ | ⟨c, o⟩
    · simp only [groupIdxFrom, hcl]
      exact ih (i + 1)
    · simp only [groupIdxFrom, hcl]
      by_cases hc : c = label
      · rw [if_pos hc, List.pairwise_cons]
        exact ⟨fun j hj => lt_of_lt_of_le (Nat.lt_succ_self i)
          (groupIdxFrom_ge cfg label (i + 1) rest hj), ih (i + 1)⟩
      · rw [if_neg hc]
        exact ih (i + 1)

theorem groupIdxFrom_label_unique (cfg : Config) {label label' : String} (i : Nat)
    (l : List ImportStmt) {j : Nat} (h : j ∈ groupIdxFrom cfg label i l)
    (h' : j ∈ groupIdxFrom cfg label' i l) : label = label' := by
  obtain ⟨k, st, o, hj, hget, hcl⟩ := (mem_groupIdxFrom cfg label i l j).mp h
  obtain ⟨k', st', o', hj', hget', hcl'⟩ := (mem_groupIdxFrom cfg label' i l j).mp h'
  have hk : k = k' := by omega
  subst hk
  rw [hget] at hget'
  injection hget' with hst
  subst hst
  rw [hcl] at hcl'
  injection hcl' with h
  exact congrArg Prod.fst h

theorem lookupGroup_ne_nil_mem_keys {g : List (String × List Nat)} {label : String}
    (h : lookupGroup g label ≠ []) : label ∈ keysOf g := by
  induction g with
  | nil => exact absurd rfl h
  | cons kv rest ih =>
    obtain ⟨k, v⟩ := kv
    by_cases hk : k = label
    · subst hk
      exact List.mem_cons_self k _
    · rw [lookupGroup, if_neg hk] at h
      exact List.mem_cons_of_mem k (ih h)

theorem lookupGroup_of_entry {g : List (String × List Nat)} {k : String}
    {v : List Nat} (hnd : (keysOf g).Nodup) (h : (k, v) ∈ g) :
    lookupGroup g k = v := by
  induction g with
  | nil => exact absurd h (List.not_mem_nil (k, v))
  | cons kv rest ih =>
    obtain ⟨k0, v0⟩ := kv
    have hnd' : (k0 :: keysOf rest).Nodup := hnd
    rw [List.nodup_cons] at hnd'
    rcases List.mem_cons.mp h with h | h
    · injection h with h1 h2
      subst h1
      subst h2
      simp [lookupGroup]
    · have hk0 : ¬ k0 = k := by
        intro hc
        subst hc
        exact hnd'.1 (List.mem_map_of_mem Prod.fst h)
      simp only [lookupGroup, if_neg hk0]
      exact ih hnd'.2 h

/-! ### Lemmas: the stable sort of the comment auditor -/

theorem insertByKey_perm (key : String → Int) (x : String) (l : List String) :
    (insertByKey key x l).Perm (x :: l) := by
  induction l with
  | nil => exact List.Perm.refl [x]
  | cons y ys ih =>
    by_cases h : key y < key x
    · rw [insertByKey, if_pos h]
      exact List.Perm.trans (List.Perm.cons y ih) (List.Perm.swap x y ys)
    · rw [insertByKey, if_neg h]

theorem sortByKey_perm (key : String → Int) (l : List String) :
    (sortByKey key l).Perm l := by
  induction l with
  | nil => exact List.Perm.refl []
  | cons x xs ih =>
    exact List.Perm.trans (insertByKey_perm key x (sortByKey key xs))
      (List.Perm.cons x ih)

theorem mem_sortByKey (key : String → Int) (l : List String) (a : String) :
    a ∈ sortByKey key l ↔ a ∈ l :=
  (sortByKey_perm key l).mem_iff

theorem count_sortByKey (key : String → Int) (l : List String) (a : String) :
    (sortByKey key l).count a = l.count a :=
  (sortByKey_perm key l).count_eq a

theorem mem_insertByKey (key : String → Int) (x : String) (l : List String)
    (a : String) : a ∈ insertByKey key x l ↔ a = x ∨ a ∈ l := by
  rw [(insertByKey_perm key x l).mem_iff, List.mem_cons]

theorem insertByKey_sorted (key : String → Int) (x : String) {l : List String}
    (h : l.Pairwise (fun a b => key a ≤ key b)) :
    (insertByKey key x l).Pairwise (fun a b => key a ≤ key b) := by
  induction l with
  | nil => exact List.pairwise_singleton _ x
  | cons y ys ih =>
    rw [List.pairwise_cons] at h
    by_cases hk : key y < key x
    · rw [insertByKey, if_pos hk, List.pairwise_cons]
      refine ⟨fun z hz => ?_, ih h.2⟩
      rcases (mem_insertByKey key x ys z).mp hz with hz | hz
      · exact hz ▸ le_of_lt hk
      · exact h.1 z hz
    · rw [insertByKey, if_neg hk, List.pairwise_cons]
      refine ⟨fun z hz => ?_, List.pairwise_cons.mpr h⟩
      rcases List.mem_cons.mp hz with hz | hz
      · exact hz ▸ le_of_not_lt hk
      · exact le_trans (le_of_not_lt hk) (h.1 z hz)

theorem sortByKey_sorted (key : String → Int) (l : List String) :
    (sortByKey key l).Pairwise (fun a b => key a ≤ key b) := by
  induction l with
  | nil => exact List.Pairwise.nil
  | cons x xs ih => exact insertByKey_sorted key x ih

/-! ### Lemmas: the comment auditor -/

theorem mem_enumFromN (n : Nat) (l : List α) (p : Nat × α) :
    p ∈ enumFromN n l ↔ ∃ k, p.1 = n + k ∧ l.get? k = some p.2 := by
  induction l generalizing n with
  | nil => simp [enumFromN]
  | cons a l ih =>
    simp only [enumFromN, List.mem_cons, ih]
    constructor
    · rintro (h | ⟨k, h1, h2⟩)
      · exact ⟨0, by simp [h], by simp [h]⟩
      · exact ⟨k + 1, by omega, by simpa using h2⟩
    · rintro ⟨k, h1, h2⟩
      cases k with
      | zero =>
        left
        simp only [List.get?] at h2
        injection h2 with h2
        obtain ⟨p1, p2⟩ := p
        simp only at h1 h2
        rw [h1, h2]
        rfl
      | succ k' =>
        right
        exact ⟨k', by omega, by simpa using h2⟩

theorem mem_dupsAt (file : List ImportStmt) (label : String) (j : Nat)
    (d : Diagnostic) :
    d ∈ dupsAt file label j
      ↔ ∃ k c, (leadingAt file j).get? k = some c
          ∧ matchesLabel label (commentValue c) = true
          ∧ d = Diagnostic.duplicateComment j k label := by
  rw [dupsAt, List.mem_filterMap]
  constructor
  · rintro ⟨⟨k, c⟩, hmem, hsome⟩
    by_cases hm : matchesLabel label (commentValue c) = true
    · rw [if_pos hm] at hsome
      injection hsome with hd
      obtain ⟨k', hk', hget⟩ := (mem_enumFromN 0 (leadingAt file j) (k, c)).mp hmem
      simp only at hk' hget
      have hkk : k = k' := by omega
      exact ⟨k, c, by rw [hkk]; exact hget, hm, hd.symm⟩
    · rw [if_neg hm] at hsome
      cases hsome
  · rintro ⟨k, c, hget, hm, hd⟩
    refine ⟨(k, c), ?_, ?_⟩
    · exact (mem_enumFromN 0 (leadingAt file j) (k, c)).mpr ⟨k, by omega, hget⟩
    · rw [if_pos hm, hd]

theorem dupsAt_kind (file : List ImportStmt) (label : String) (j : Nat) :
    ∀ d ∈ dupsAt file label j, ∃ k, d = Diagnostic.duplicateComment j k label := by
  intro d hd
  obtain ⟨k, c, _, _, hd⟩ := (mem_dupsAt file label j d).mp hd
  exact ⟨k, hd⟩

theorem missing_mem_perCategory (file : List ImportStmt)
    (groups : List (String × List Nat)) (label : String) (i : Nat) (lbl : String) :
    Diagnostic.missingComment i lbl ∈ perCategory file groups label
      ↔ lbl = label ∧ ∃ rest, lookupGroup groups label = i :: rest
          ∧ (leadingAt file i).any
              (fun c => matchesLabel label (commentValue c)) = false := by
  rw [perCategory]
  rcases hlk : lookupGroup groups label with _ | ⟨first, rest⟩
  · simp
  · rw [List.mem_append]
    constructor
    · rintro (h | h)
      · by_cases hany : (leadingAt file first).any
            (fun c => matchesLabel label (commentValue c)) = true
        · rw [if_pos hany] at h
          exact absurd h (List.not_mem_nil _)
        · rw [if_neg hany] at h
          rw [List.mem_singleton] at h
          injection h with h1 h2
          subst h1
          subst h2
          exact ⟨rfl, rest, rfl, Bool.eq_false_iff.mpr hany⟩
      · rw [List.mem_flatMap] at h
        obtain ⟨j, _, hj⟩ := h
        obtain ⟨k, hk⟩ := dupsAt_kind file label j _ hj
        cases hk
    · rintro ⟨hlbl, rest', heq, hany⟩
      subst hlbl
      injection heq with h1 h2
      subst h1
      subst h2
      left
      rw [if_neg (by rw [hany]; exact Bool.false_ne_true)]
      exact List.mem_singleton.mpr rfl

theorem dup_mem_perCategory (file : List ImportStmt)
    (groups : List (String × List Nat)) (label : String) (j k : Nat)
    (lbl : String) :
    Diagnostic.duplicateComment j k lbl ∈ perCategory file groups label
      ↔ lbl = label ∧ ∃ first rest, lookupGroup groups label = first :: rest
          ∧ j ∈ rest ∧ ∃ c, (leadingAt file j).get? k = some c
          ∧ matchesLabel label (commentValue c) = true := by
  rw [perCategory]
  rcases hlk : lookupGroup groups label with _ | ⟨first, rest⟩
  · simp
  · rw [List.mem_append]
    constructor
    · rintro (h | h)
      · by_cases hany : (leadingAt file first).any
            (fun c => matchesLabel label (commentValue c)) = true
        · rw [if_pos hany] at h
          exact absurd h (List.not_mem_nil _)
        · rw [if_neg hany] at h
          rw [List.mem_singleton] at h
          cases h
      · rw [List.mem_flatMap] at h
        obtain ⟨j', hj', hd⟩ := h
        obtain ⟨k', c, hget, hm, hd⟩ := (mem_dupsAt file label j' _).mp hd
        injection hd with h1 h2 h3
        subst h1
        subst h2
        subst h3
        exact ⟨rfl, first, rest, rfl, hj', c, hget, hm⟩
    · rintro ⟨hlbl, first', rest', heq, hj, c, hget, hm⟩
      subst hlbl
      injection heq with h1 h2
      subst h1
      subst h2
      right
      rw [List.mem_flatMap]
      exact ⟨j, hj, (mem_dupsAt file lbl j _).mpr ⟨k, c, hget, hm, rfl⟩⟩

theorem perCategory_kind (file : List ImportStmt)
    (groups : List (String × List Nat)) (label : String) :
    ∀ d ∈ perCategory file groups label,
      (∃ i, d = Diagnostic.missingComment i label)
        ∨ (∃ j k, d = Diagnostic.duplicateComment j k label) := by
  intro d hd
  rw [perCategory] at hd
  rcases hlk : lookupGroup groups label with _ | ⟨first, rest⟩ <;> rw [hlk] at hd
  · exact absurd hd (List.not_mem_nil d)
  · rcases List.mem_append.mp hd with h | h
    · by_cases hany : (leadingAt file first).any
          (fun c => matchesLabel label (commentValue c)) = true
      · rw [if_pos hany] at h
        exact absurd h (List.not_mem_nil d)
      · rw [if_neg hany] at h
        rw [List.mem_singleton] at h
        exact Or.inl ⟨first, h⟩
    · rw [List.mem_flatMap] at h
      obtain ⟨j, _, hj⟩ := h
      obtain ⟨k, hk⟩ := dupsAt_kind file label j d hj
      exact Or.inr ⟨j, k, hk⟩

theorem missing_mem_comments (cfg : Config) (file : List ImportStmt) (i : Nat)
    (lbl : String) :
    Diagnostic.missingComment i lbl ∈ checkCategoryComments cfg file
      ↔ cfg.enforceComments = true
        ∧ ∃ rest, lookupGroup (groupImportsByCategory cfg file) lbl = i :: rest
        ∧ (leadingAt file i).any
            (fun c => matchesLabel lbl (commentValue c)) = false := by
  rw [checkCategoryComments]
  by_cases hec : cfg.enforceComments
  · rw [if_pos hec, List.mem_flatMap]
    simp only [hec, true_and]
    constructor
    · rintro ⟨label, hlabel, hmem⟩
      obtain ⟨hlbl, rest, heq, hany⟩ :=
        (missing_mem_perCategory file _ label i lbl).mp hmem
      subst hlbl
      exact ⟨rest, heq, hany⟩
    · rintro ⟨rest, heq, hany⟩
      refine ⟨lbl, ?_, (missing_mem_perCategory file _ lbl i lbl).mpr
        ⟨rfl, rest, heq, hany⟩⟩
      rw [sortedKeysOf, mem_sortByKey]
      exact lookupGroup_ne_nil_mem_keys (by rw [heq]; exact List.cons_ne_nil i rest)
  · rw [if_neg hec]
    simp [hec]

theorem dup_mem_comments (cfg : Config) (file : List ImportStmt) (j k : Nat)
    (lbl : String) :
    Diagnostic.duplicateComment j k lbl ∈ checkCategoryComments cfg file
      ↔ cfg.enforceComments = true
        ∧ ∃ first rest,
            lookupGroup (groupImportsByCategory cfg file) lbl = first :: rest
            ∧ j ∈ rest ∧ ∃ c, (leadingAt file j).get? k = some c
            ∧ matchesLabel lbl (commentValue c) = true := by
  rw [checkCategoryComments]
  by_cases hec : cfg.enforceComments
  · rw [if_pos hec, List.mem_flatMap]
    simp only [hec, true_and]
    constructor
    · rintro ⟨label, hlabel, hmem⟩
      obtain ⟨hlbl, first, rest, heq, hj, c, hget, hm⟩ :=
        (dup_mem_perCategory file _ label j k lbl).mp hmem
      subst hlbl
      exact ⟨first, rest, heq, hj, c, hget, hm⟩
    · rintro ⟨first, rest, heq, hj, c, hget, hm⟩
      refine ⟨lbl, ?_, (dup_mem_perCategory file _ lbl j k lbl).mpr
        ⟨rfl, first, rest, heq, hj, c, hget, hm⟩⟩
      rw [sortedKeysOf, mem_sortByKey]
      exact lookupGroup_ne_nil_mem_keys
        (by rw [heq]; exact List.cons_ne_nil first rest)
  · rw [if_neg hec]
    simp [hec]

theorem comments_kind (cfg : Config) (file : List ImportStmt) :
    ∀ d ∈ checkCategoryComments cfg file,
      (∃ i lbl, d = Diagnostic.missingComment i lbl)
        ∨ (∃ j k lbl, d = Diagnostic.duplicateComment j k lbl) := by
  intro d hd
  rw [checkCategoryComments] at hd
  by_cases hec : cfg.enforceComments
  · rw [if_pos hec, List.mem_flatMap] at hd
    obtain ⟨label, _, hmem⟩ := hd
    rcases perCategory_kind file _ label d hmem with ⟨i, h⟩ | ⟨j, k, h⟩
    · exact Or.inl ⟨i, label, h⟩
    · exact Or.inr ⟨j, k, label, h⟩
  · rw [if_neg hec] at hd
    exact absurd hd (List.not_mem_nil d)

/-! ### Lemmas: a freshly inserted label comment matches its label -/

theorem strStarts_true_iff (s p : String) :
    strStarts s p = true ↔ p.data <+: s.data := by
  rw [strStarts]
  exact List.isPrefixOf_iff_prefix

theorem strEnds_true_iff (s p : String) :
    strEnds s p = true ↔ p.data <:+ s.data := by
  rw [strEnds]
  exact List.isSuffixOf_iff_suffix

theorem matchesLabel_formatComment (cfg : Config) (label : String) :
    matchesLabel label (commentValue (formatComment cfg label)) = true := by
  rw [matchesLabel, Bool.or_eq_true]
  right
  rw [beq_iff_eq]
  rcases hstyle : cfg.commentStyle with _ | _
  · -- line style
    rw [show formatComment cfg label
        = (if strStarts label "//" then label else "// " ++ label) from by
      rw [formatComment, hstyle]]
    by_cases hs : strStarts label "//" = true
    · rw [if_pos hs, commentValue, if_pos hs, stripLineMarker, if_pos hs]
      apply strExt
      exact (trimChars_dropWhile (label.data.drop 2)).symm
    · rw [if_neg hs, stripLineMarker, if_neg hs]
      have hdata : ("// " ++ label).data = '/' :: '/' :: ' ' :: label.data := by
        rw [String.data_append]
        rfl
      have hstart : strStarts ("// " ++ label) "//" = true := by
        rw [strStarts_true_iff, hdata,
          show ("//" : String).data = ['/', '/'] from rfl]
        rw [List.cons_prefix_cons]
        refine ⟨rfl, ?_⟩
        rw [List.cons_prefix_cons]
        exact ⟨rfl, List.nil_prefix⟩
      rw [commentValue, if_pos hstart]
      apply strExt
      show trimChars (("// " ++ label).data.drop 2) = trimChars label.data
      rw [hdata]
      show trimChars (' ' :: label.data) = trimChars label.data
      exact trimChars_cons_ws label.data (by decide)
  · -- block style
    rw [show formatComment cfg label
        = "/* " ++ stripLineMarker label ++ " */" from by
      rw [formatComment, hstyle]]
    have hd : ("/* " ++ stripLineMarker label ++ " */").data
        = '/' :: '*' :: ' ' :: ((stripLineMarker label).data ++ [' ', '*', '/']) := by
      rw [String.data_append, String.data_append,
        show ("/* " : String).data = ['/', '*', ' '] from rfl,
        show (" */" : String).data = [' ', '*', '/'] from rfl]
      simp
    have hno : ¬ strStarts ("/* " ++ stripLineMarker label ++ " */") "//" = true := by
      rw [strStarts_true_iff, hd, show ("//" : String).data = ['/', '/'] from rfl]
      intro hpre
      rw [List.cons_prefix_cons] at hpre
      obtain ⟨_, hpre⟩ := hpre
      rw [List.cons_prefix_cons] at hpre
      exact absurd hpre.1 (by decide)
    have hyes : strStarts ("/* " ++ stripLineMarker label ++ " */") "/*" = true := by
      rw [strStarts_true_iff, hd, show ("/*" : String).data = ['/', '*'] from rfl]
      rw [List.cons_prefix_cons]
      refine ⟨rfl, ?_⟩
      rw [List.cons_prefix_cons]
      exact ⟨rfl, List.nil_prefix⟩
    have hends : strEnds ("/* " ++ stripLineMarker label ++ " */") "*/" = true := by
      rw [strEnds_true_iff, hd, show ("*/" : String).data = ['*', '/'] from rfl]
      have : '/' :: '*' :: ' ' :: ((stripLineMarker label).data ++ [' ', '*', '/'])
          = ('/' :: '*' :: ' ' :: ((stripLineMarker label).data ++ [' ']))
            ++ ['*', '/'] := by
        simp
      rw [this]
      exact List.suffix_append _ _
    have hlen : decide (4 ≤ ("/* " ++ stripLineMarker label ++ " */").data.length)
        = true := by
      rw [decide_eq_true_iff, hd]
      simp
    rw [commentValue, if_neg hno, if_pos (by rw [hyes, hends, hlen]; rfl)]
    apply strExt
    show trimChars ((("/* " ++ stripLineMarker label ++ " */").data.drop 2).take
        ((("/* " ++ stripLineMarker label ++ " */").data.drop 2).length - 2))
      = trimChars (stripLineMarker label).data
    rw [hd]
    show trimChars ((' ' :: ((stripLineMarker label).data ++ [' ', '*', '/'])).take
        ((' ' :: ((stripLineMarker label).data ++ [' ', '*', '/'])).length - 2))
      = trimChars (stripLineMarker label).data
    have hlen2 : (' ' :: ((stripLineMarker label).data ++ [' ', '*', '/'])).length - 2
        = (stripLineMarker label).data.length + 2 := by
      simp
    rw [hlen2, List.take_succ_cons]
    have htake : ((stripLineMarker label).data ++ [' ', '*', '/']).take
        ((stripLineMarker label).data.length + 1)
        = (stripLineMarker label).data ++ [' '] := by
      rw [show (stripLineMarker label).data ++ [' ', '*', '/']
          = ((stripLineMarker label).data ++ [' ']) ++ ['*', '/'] from by simp]
      rw [show (stripLineMarker label).data.length + 1
          = ((stripLineMarker label).data ++ [' ']).length + 0 from by simp]
      rw [List.take_append]
      simp
    rw [htake]
    rw [trimChars_cons_ws _ (by decide)]
    exact trimChars_append_ws _ (by decide)

/-! ### Lemmas: applying fixes -/

theorem classify_fixStmt (cfg : Config) (D : List Diagnostic) (i : Nat)
    (st : ImportStmt) : classifyStmt cfg (fixStmt cfg D i st) = classifyStmt cfg st :=
  rfl

theorem get?_applyFixesAux (cfg : Config) (D : List Diagnostic) (n : Nat)
    (l : List ImportStmt) (k : Nat) :
    (applyFixesAux cfg D n l).get? k = (l.get? k).map (fixStmt cfg D (n + k)) := by
  induction l generalizing n k with
  | nil => simp [applyFixesAux]
  | cons st rest ih =>
    cases k with
    | zero => simp [applyFixesAux]
    | succ k' =>
      simp only [applyFixesAux, List.get?]
      rw [ih (n + 1) k', show n + 1 + k' = n + (k' + 1) from by omega]

theorem groupAux_applyFixesAux (cfg : Config) (D : List Diagnostic)
    (acc : List (String × List Nat)) (i n : Nat) (l : List ImportStmt) :
    groupAux cfg acc i (applyFixesAux cfg D n l) = groupAux cfg acc i l := by
  induction l generalizing acc i n with
  | nil => rfl
  | cons st rest ih =>
    simp only [applyFixesAux, groupAux, classify_fixStmt]
    cases classifyStmt cfg st with
    | none => exact ih acc (i + 1) (n + 1)
    | some co => exact ih _ (i + 1) (n + 1)

theorem orderAux_applyFixesAux (cfg : Config) (D : List Diagnostic) (E : Int)
    (i n : Nat) (l : List ImportStmt) :
    orderAux cfg E i (applyFixesAux cfg D n l) = orderAux cfg E i l := by
  induction l generalizing E i n with
  | nil => rfl
  | cons st rest ih =>
    simp only [applyFixesAux, orderAux, classify_fixStmt]
    cases classifyStmt cfg st with
    | none => exact ih E (i + 1) (n + 1)
    | some co =>
      by_cases hlt : co.2 < E
      · simp only [if_pos hlt, ih E (i + 1) (n + 1)]
        rfl
      · simp only [if_neg hlt, ih co.2 (i + 1) (n + 1)]

theorem groupImports_applyAllFixes (cfg : Config) (file : List ImportStmt) :
    groupImportsByCategory cfg (applyAllFixes cfg file)
      = groupImportsByCategory cfg file :=
  groupAux_applyFixesAux cfg (runRule cfg file) [] 0 0 file

theorem checkImportOrder_applyAllFixes (cfg : Config) (file : List ImportStmt) :
    checkImportOrder cfg (applyAllFixes cfg file) = checkImportOrder cfg file := by
  rw [checkImportOrder, checkImportOrder]
  by_cases h : cfg.enforceOrder
  · rw [if_pos h, if_pos h]
    exact orderAux_applyFixesAux cfg (runRule cfg file) 0 0 0 file
  · rw [if_neg h, if_neg h]

theorem applyFixesAux_eq_nil (cfg : Config) (D : List Diagnostic) (n : Nat)
    (l : List ImportStmt) : applyFixesAux cfg D n l = [] ↔ l = [] := by
  cases l with
  | nil => simp [applyFixesAux]
  | cons st rest => simp [applyFixesAux]

theorem mem_insertsFor (cfg : Config) (D : List Diagnostic) (i : Nat) (s : String) :
    s ∈ insertsFor cfg D i
      ↔ ∃ label, Diagnostic.missingComment i label ∈ D
          ∧ s = formatComment cfg label := by
  rw [insertsFor, List.mem_filterMap]
  constructor
  · rintro ⟨d, hd, hs⟩
    cases d with
    | missingComment j label =>
      by_cases hj : j = i
      · simp only [if_pos hj] at hs
        injection hs with hs
        subst hj
        exact ⟨label, hd, hs.symm⟩
      · simp only [if_neg hj] at hs
        cases hs
    | duplicateComment j k label => cases hs
    | wrongOrder a b c d e => cases hs
  · rintro ⟨label, hd, hs⟩
    exact ⟨Diagnostic.missingComment i label, hd, by simp [hs]⟩

theorem any_isDupFixAt (D : List Diagnostic) (i k : Nat) :
    D.any (isDupFixAt · i k) = true
      ↔ ∃ lbl, Diagnostic.duplicateComment i k lbl ∈ D := by
  rw [List.any_eq_true]
  constructor
  · rintro ⟨d, hd, hdk⟩
    cases d with
    | missingComment j label => cases hdk
    | duplicateComment j k' label =>
      rw [isDupFixAt, Bool.and_eq_true, beq_iff_eq, beq_iff_eq] at hdk
      obtain ⟨h1, h2⟩ := hdk
      subst h1
      subst h2
      exact ⟨label, hd⟩
    | wrongOrder a b c d e => cases hdk
  · rintro ⟨lbl, hd⟩
    refine ⟨Diagnostic.duplicateComment i k lbl, hd, ?_⟩
    rw [isDupFixAt, Bool.and_eq_true, beq_iff_eq, beq_iff_eq]
    exact ⟨rfl, rfl⟩

/-- The leading comments of import `i` after all fixes are applied. -/
theorem leadingAt_applyAllFixes (cfg : Config) (file : List ImportStmt) (i : Nat)
    (st : ImportStmt) (hget : file.get? i = some st) :
    leadingAt (applyAllFixes cfg file) i
      = ((enumFromN 0 st.leading).filter
          (fun kc => !((runRule cfg file).any (isDupFixAt · i kc.1)))).map Prod.snd
        ++ insertsFor cfg (runRule cfg file) i := by
  rw [leadingAt, applyAllFixes, get?_applyFixesAux, hget, Nat.zero_add]
  rfl

/-! ### Lemmas: the fixed file re-audits clean -/

theorem checkCategoryComments_nil (cfg : Config) :
    checkCategoryComments cfg [] = [] := by
  rw [checkCategoryComments]
  by_cases h : cfg.enforceComments
  · rw [if_pos h]
    rfl
  · rw [if_neg h]

theorem checkImportOrder_kind (cfg : Config) (file : List ImportStmt) :
    ∀ d ∈ checkImportOrder cfg file,
      ∃ i p c e o, d = Diagnostic.wrongOrder i p c e o := by
  intro d hd
  rw [checkImportOrder] at hd
  by_cases h : cfg.enforceOrder
  · rw [if_pos h] at hd
    exact orderAux_kind cfg 0 0 file d hd
  · rw [if_neg h] at hd
    exact absurd hd (List.not_mem_nil d)

theorem missing_mem_runRule (cfg : Config) (file : List ImportStmt) (i : Nat)
    (lbl : String) :
    Diagnostic.missingComment i lbl ∈ runRule cfg file
      ↔ Diagnostic.missingComment i lbl ∈ checkCategoryComments cfg file := by
  rw [runRule]
  by_cases hnil : file = []
  · subst hnil
    rw [if_pos rfl, checkCategoryComments_nil]
  · rw [if_neg hnil, List.mem_append]
    constructor
    · rintro (h | h)
      · obtain ⟨a, b, c, d, e, hk⟩ := checkImportOrder_kind cfg file _ h
        cases hk
      · exact h
    · exact Or.inr

theorem dup_mem_runRule (cfg : Config) (file : List ImportStmt) (j k : Nat)
    (lbl : String) :
    Diagnostic.duplicateComment j k lbl ∈ runRule cfg file
      ↔ Diagnostic.duplicateComment j k lbl ∈ checkCategoryComments cfg file := by
  rw [runRule]
  by_cases hnil : file = []
  · subst hnil
    rw [if_pos rfl, checkCategoryComments_nil]
  · rw [if_neg hnil, List.mem_append]
    constructor
    · rintro (h | h)
      · obtain ⟨a, b, c, d, e, hk⟩ := checkImportOrder_kind cfg file _ h
        cases hk
      · exact h
    · exact Or.inr

/-- The head of a group bucket never carries a duplicate-comment fix, and a
non-head member never carries a missing-comment fix. -/
theorem head_notin_tail (cfg : Config) (file : List ImportStmt) {lbl : String}
    {first : Nat} {rest : List Nat}
    (h : lookupGroup (groupImportsByCategory cfg file) lbl = first :: rest) :
    first ∉ rest := by
  have hp : (first :: rest).Pairwise (· < ·) := by
    rw [← h, lookupGroup_groupImports]
    exact groupIdxFrom_pairwise cfg lbl 0 file
  rw [List.pairwise_cons] at hp
  intro hmem
  exact absurd (hp.1 first hmem) (lt_irrefl first)

/-- Two group buckets an index belongs to have the same label. -/
theorem bucket_label_eq (cfg : Config) (file : List ImportStmt)
    {lbl lbl' : String} {j : Nat}
    (h : j ∈ lookupGroup (groupImportsByCategory cfg file) lbl)
    (h' : j ∈ lookupGroup (groupImportsByCategory cfg file) lbl') : lbl = lbl' := by
  rw [lookupGroup_groupImports] at h h'
  exact groupIdxFrom_label_unique cfg 0 file h h'

theorem no_missing_after_fixes (cfg : Config) (file : List ImportStmt) (i : Nat)
    (lbl : String)
    (hd : Diagnostic.missingComment i lbl
      ∈ checkCategoryComments cfg (applyAllFixes cfg file)) : False := by
  obtain ⟨hec, rest, hlk, hany⟩ :=
    (missing_mem_comments cfg (applyAllFixes cfg file) i lbl).mp hd
  rw [groupImports_applyAllFixes] at hlk
  have hmemgrp : i ∈ lookupGroup (groupImportsByCategory cfg file) lbl := by
    rw [hlk]
    exact List.mem_cons_self i rest
  obtain ⟨k0, st, o0, hi0, hget0, hcl0⟩ := (mem_groupIdxFrom cfg lbl 0 file i).mp
    (by rw [← lookupGroup_groupImports]; exact hmemgrp)
  have hget : file.get? i = some st := by
    rw [show i = k0 from by omega]
    exact hget0
  rw [leadingAt_applyAllFixes cfg file i st hget] at hany
  by_cases hmiss : Diagnostic.missingComment i lbl ∈ runRule cfg file
  · -- the fix inserted the label comment, which matches
    have hins : formatComment cfg lbl ∈ insertsFor cfg (runRule cfg file) i :=
      (mem_insertsFor cfg (runRule cfg file) i _).mpr ⟨lbl, hmiss, rfl⟩
    have : (((enumFromN 0 st.leading).filter
          (fun kc => !((runRule cfg file).any (isDupFixAt · i kc.1)))).map Prod.snd
        ++ insertsFor cfg (runRule cfg file) i).any
          (fun c => matchesLabel lbl (commentValue c)) = true := by
      rw [List.any_eq_true]
      exact ⟨formatComment cfg lbl, List.mem_append.mpr (Or.inr hins),
        matchesLabel_formatComment cfg lbl⟩
    rw [this] at hany
    cases hany
  · -- the comment was already there and no fix removed it
    have horig : (leadingAt file i).any
        (fun c => matchesLabel lbl (commentValue c)) = true := by
      by_cases h : (leadingAt file i).any
          (fun c => matchesLabel lbl (commentValue c)) = true
      · exact h
      · exfalso
        apply hmiss
        rw [missing_mem_runRule]
        exact (missing_mem_comments cfg file i lbl).mpr
          ⟨hec, rest, hlk, Bool.eq_false_iff.mpr h⟩
    rw [List.any_eq_true] at horig
    obtain ⟨c, hcmem, hcmatch⟩ := horig
    have hcl : leadingAt file i = st.leading := by
      rw [leadingAt, hget]
    rw [hcl] at hcmem
    obtain ⟨k1, hk1⟩ := List.get?_of_mem hcmem
    have hnotdup : ¬ (runRule cfg file).any (isDupFixAt · i k1) = true := by
      intro hdup
      obtain ⟨lbl', hdup'⟩ := (any_isDupFixAt (runRule cfg file) i k1).mp hdup
      rw [dup_mem_runRule] at hdup'
      obtain ⟨_, first', rest', hlk', hmem', _⟩ :=
        (dup_mem_comments cfg file i k1 lbl').mp hdup'
      have : lbl = lbl' := bucket_label_eq cfg file hmemgrp
        (by rw [hlk']; exact List.mem_cons_of_mem first' hmem')
      subst this
      rw [hlk] at hlk'
      injection hlk' with h1 h2
      subst h1
      subst h2
      exact head_notin_tail cfg file hlk hmem'
    have hsurv : c ∈ ((enumFromN 0 st.leading).filter
        (fun kc => !((runRule cfg file).any (isDupFixAt · i kc.1)))).map Prod.snd := by
      rw [List.mem_map]
      refine ⟨(k1, c), ?_, rfl⟩
      rw [List.mem_filter]
      refine ⟨(mem_enumFromN 0 st.leading (k1, c)).mpr ⟨k1, by omega, hk1⟩, ?_⟩
      simp only [Bool.not_eq_true']
      exact Bool.eq_false_iff.mpr hnotdup
    have : (((enumFromN 0 st.leading).filter
          (fun kc => !((runRule cfg file).any (isDupFixAt · i kc.1)))).map Prod.snd
        ++ insertsFor cfg (runRule cfg file) i).any
          (fun c => matchesLabel lbl (commentValue c)) = true := by
      rw [List.any_eq_true]
      exact ⟨c, List.mem_append.mpr (Or.inl hsurv), hcmatch⟩
    rw [this] at hany
    cases hany

theorem no_dup_after_fixes (cfg : Config) (file : List ImportStmt) (j k : Nat)
    (lbl : String)
    (hd : Diagnostic.duplicateComment j k lbl
      ∈ checkCategoryComments cfg (applyAllFixes cfg file)) : False := by
  obtain ⟨hec, first, rest, hlk, hjrest, c, hget, hmatch⟩ :=
    (dup_mem_comments cfg (applyAllFixes cfg file) j k lbl).mp hd
  rw [groupImports_applyAllFixes] at hlk
  have hmemgrp : j ∈ lookupGroup (groupImportsByCategory cfg file) lbl := by
    rw [hlk]
    exact List.mem_cons_of_mem first hjrest
  obtain ⟨k0, stj, o0, hj0, hget0, hcl0⟩ := (mem_groupIdxFrom cfg lbl 0 file j).mp
    (by rw [← lookupGroup_groupImports]; exact hmemgrp)
  have hgetj : file.get? j = some stj := by
    rw [show j = k0 from by omega]
    exact hget0
  rw [leadingAt_applyAllFixes cfg file j stj hgetj] at hget
  -- no missing-comment fix ever lands on a non-head group member
  have hins : insertsFor cfg (runRule cfg file) j = [] := by
    rw [List.eq_nil_iff_forall_not_mem]
    intro s hs
    obtain ⟨lbl'', hmiss'', _⟩ :=
      (mem_insertsFor cfg (runRule cfg file) j s).mp hs
    rw [missing_mem_runRule] at hmiss''
    obtain ⟨_, rest'', hlk'', _⟩ :=
      (missing_mem_comments cfg file j lbl'').mp hmiss''
    have : lbl = lbl'' := bucket_label_eq cfg file hmemgrp
      (by rw [hlk'']; exact List.mem_cons_self j rest'')
    subst this
    rw [hlk] at hlk''
    injection hlk'' with h1 h2
    subst h1
    exact head_notin_tail cfg file hlk hjrest
  rw [hins, List.append_nil] at hget
  -- the comment at position `k` of the fixed leading block survived the
  -- filter, so it was not flagged; but it matches, so it was flagged
  have hcm : c ∈ ((enumFromN 0 stj.leading).filter
      (fun kc => !((runRule cfg file).any (isDupFixAt · j kc.1)))).map Prod.snd :=
    List.get?_mem hget
  rw [List.mem_map] at hcm
  obtain ⟨⟨k1, c1⟩, hfilter, hsnd⟩ := hcm
  simp only at hsnd
  rw [List.mem_filter] at hfilter
  obtain ⟨henum, hnot⟩ := hfilter
  obtain ⟨k2, hk2, hget2⟩ := (mem_enumFromN 0 stj.leading (k1, c1)).mp henum
  simp only at hk2 hget2
  rw [hsnd] at hget2
  have hdup : Diagnostic.duplicateComment j k1 lbl ∈ runRule cfg file := by
    rw [dup_mem_runRule]
    refine (dup_mem_comments cfg file j k1 lbl).mpr
      ⟨hec, first, rest, hlk, hjrest, c, ?_, hmatch⟩
    rw [leadingAt, hgetj]
    rw [show k1 = k2 from by omega]
    exact hget2
  rw [Bool.not_eq_true'] at hnot
  rw [Bool.eq_false_iff] at hnot
  exact hnot ((any_isDupFixAt (runRule cfg file) j k1).mpr ⟨lbl, hdup⟩)

/-- After one round of fixes the comment auditor reports nothing. -/
theorem checkCategoryComments_applyAllFixes (cfg : Config)
    (file : List ImportStmt) :
    checkCategoryComments cfg (applyAllFixes cfg file) = [] := by
  rw [List.eq_nil_iff_forall_not_mem]
  intro d hd
  rcases comments_kind cfg (applyAllFixes cfg file) d hd with ⟨i, lbl, h⟩ | ⟨j, k, lbl, h⟩
  · subst h
    exact no_missing_after_fixes cfg file i lbl hd
  · subst h
    exact no_dup_after_fixes cfg file j k lbl hd

/-! ### Lemmas: rendering and byte-level fixes -/

theorem strJoin_append (a b : List String) :
    strJoin (a ++ b) = strJoin a ++ strJoin b := by
  induction a with
  | nil =>
    rw [List.nil_append, strJoin, String.empty_append]
  | cons s a ih =>
    rw [List.cons_append, strJoin, strJoin, ih, String.append_assoc]

theorem splitAtGet {l : List α} {k : Nat} {c : α} (h : l.get? k = some c) :
    l = l.take k ++ c :: l.drop (k + 1) := by
  induction l generalizing k with
  | nil => cases h
  | cons a rest ih =>
    cases k with
    | zero =>
      simp only [List.get?] at h
      injection h with h
      rw [h, List.take_zero, List.drop_succ_cons, List.drop_zero, List.nil_append]
    | succ k' =>
      simp only [List.get?] at h
      rw [List.take_succ_cons, List.drop_succ_cons, List.cons_append]
      exact congrArg (a :: ·) (ih h)

theorem renderFile_append (a b : List ImportStmt) :
    renderFile (a ++ b) = renderFile a ++ renderFile b := by
  rw [renderFile, List.map_append, strJoin_append]
  rfl

theorem renderFile_cons (st : ImportStmt) (l : List ImportStmt) :
    renderFile (st :: l) = renderStmt st ++ renderFile l := by
  rw [renderFile, List.map_cons, strJoin]
  rfl

theorem appendLeadingAt_split {file : List ImportStmt} {i : Nat} {st : ImportStmt}
    (c : String) (hget : file.get? i = some st) :
    appendLeadingAt c i file
      = file.take i
        ++ { st with leading := st.leading ++ [c] } :: file.drop (i + 1) := by
  induction file generalizing i with
  | nil => cases hget
  | cons a rest ih =>
    cases i with
    | zero =>
      simp only [List.get?] at hget
      injection hget with hget
      subst hget
      rw [appendLeadingAt, List.take_zero, List.drop_succ_cons, List.drop_zero,
        List.nil_append]
    | succ i' =>
      simp only [List.get?] at hget
      rw [appendLeadingAt, List.take_succ_cons, List.drop_succ_cons,
        List.cons_append]
      exact congrArg (a :: ·) (ih hget)

theorem removeLeadingAt_split {file : List ImportStmt} {j : Nat} {st : ImportStmt}
    (k : Nat) (hget : file.get? j = some st) :
    removeLeadingAt k j file
      = file.take j
        ++ { st with leading := removeIdx k st.leading } :: file.drop (j + 1) := by
  induction file generalizing j with
  | nil => cases hget
  | cons a rest ih =>
    cases j with
    | zero =>
      simp only [List.get?] at hget
      injection hget with hget
      subst hget
      rw [removeLeadingAt, List.take_zero, List.drop_succ_cons, List.drop_zero,
        List.nil_append]
    | succ j' =>
      simp only [List.get?] at hget
      rw [removeLeadingAt, List.take_succ_cons, List.drop_succ_cons,
        List.cons_append]
      exact congrArg (a :: ·) (ih hget)

/-- The missing-comment fix, seen at the byte level: inserting the rendered
label line at the import's start offset produces exactly the bytes of the
file in which the comment had been written above the import all along. -/
theorem insertTextBefore_eq_render (file : List ImportStmt) (i : Nat)
    (st : ImportStmt) (c : String) (hget : file.get? i = some st) :
    insertTextBeforeRender file i (c ++ "\n")
      = renderFile (appendLeadingAt c i file) := by
  rw [appendLeadingAt_split c hget, renderFile_append, renderFile_cons]
  rw [insertTextBeforeRender, leadingAt, hget, textAt, hget]
  rw [renderStmt]
  simp only []
  rw [List.map_append, strJoin_append]
  rw [show strJoin ([c].map renderComment) = c ++ "\n" ++ "" from rfl]
  rw [String.append_empty]
  simp only [renderFile, String.append_assoc]

/-- The duplicate-comment fix, seen at the byte level: the file splits as
`A ++ (comment line) ++ B`, and removing the flagged comment leaves exactly
`A ++ B` — the comment's range plus its trailing line break disappears. -/
theorem removeComment_eq_render (file : List ImportStmt) (j k : Nat)
    (st : ImportStmt) (c : String) (hget : file.get? j = some st)
    (hc : st.leading.get? k = some c) :
    renderFile file
        = (renderFile (file.take j)
            ++ strJoin ((st.leading.take k).map renderComment))
          ++ (c ++ "\n")
          ++ (strJoin ((st.leading.drop (k + 1)).map renderComment)
            ++ st.text ++ "\n" ++ renderFile (file.drop (j + 1)))
      ∧ renderFile (removeLeadingAt k j file)
        = (renderFile (file.take j)
            ++ strJoin ((st.leading.take k).map renderComment))
          ++ (strJoin ((st.leading.drop (k + 1)).map renderComment)
            ++ st.text ++ "\n" ++ renderFile (file.drop (j + 1))) := by
  constructor
  · conv_lhs => rw [splitAtGet hget]
    rw [renderFile_append, renderFile_cons, renderStmt]
    conv_lhs => rw [splitAtGet hc]
    rw [List.map_append, strJoin_append, List.map_cons, strJoin]
    rw [show renderComment c = c ++ "\n" from rfl]
    simp only [String.append_assoc]
  · rw [removeLeadingAt_split k hget, renderFile_append, renderFile_cons,
      renderStmt]
    simp only [removeIdx]
    rw [List.map_append, strJoin_append]
    simp only [String.append_assoc]

/-! ### Lemmas: the classifier -/

theorem findCategory_eq_classifySpec (cats : List CompiledCategory) (path : String) :
    findCategory cats path
      = (cats.find? (fun c => c.patterns.any (fun p => p path))).map
          (fun c => (c.comment, c.order)) := by
  induction cats with
  | nil => rfl
  | cons c rest ih =>
    by_cases h : c.patterns.any (fun p => p path) = true
    · have hf : (c :: rest).find? (fun c => c.patterns.any (fun p => p path))
          = some c := by
        simp [List.find?_cons, h]
      rw [findCategory, if_pos h, hf]
      rfl
    · have hb : c.patterns.any (fun p => p path) = false := Bool.eq_false_iff.mpr h
      have hf : (c :: rest).find? (fun c => c.patterns.any (fun p => p path))
          = rest.find? (fun c => c.patterns.any (fun p => p path)) := by
        simp [List.find?_cons, hb]
      rw [findCategory, if_neg h, hf, ih]

theorem getCategoryForImport_type (cfg : Config) (path t : String)
    (ht : cfg.typeImportsCategory = some t) (hne : t ≠ "") :
    ∃ o, getCategoryForImport cfg path true = some (t, o) := by
  have hne' : (t == "") = false := by
    rw [Bool.eq_false_iff]
    intro hc
    exact hne (beq_iff_eq.mp hc)
  rcases hf : cfg.categories.find? (fun c => c.comment == t) with _ | c
  · refine ⟨0, ?_⟩
    simp only [getCategoryForImport, ht, hne', Bool.not_false, Bool.and_self,
      if_true, hf]
  · refine ⟨c.order, ?_⟩
    simp only [getCategoryForImport, ht, hne', Bool.not_false, Bool.and_self,
      if_true, hf]
    have hp : (c.comment == t) = true :=
      @List.find?_some _ (fun c => c.comment == t) c cfg.categories hf
    have : c.comment = t := beq_iff_eq.mp hp
    rw [this]

theorem getCategoryForImport_type_fresh (cfg : Config) (path t : String)
    (ht : cfg.typeImportsCategory = some t) (hne : t ≠ "")
    (hfind : cfg.categories.find? (fun c => c.comment == t) = none) :
    getCategoryForImport cfg path true = some (t, 0) := by
  have hne' : (t == "") = false := by
    rw [Bool.eq_false_iff]
    intro hc
    exact hne (beq_iff_eq.mp hc)
  simp only [getCategoryForImport, ht, hne', Bool.not_false, Bool.and_self,
    if_true, hfind]

theorem orderKey_type (cfg : Config) (t : String)
    (ht : cfg.typeImportsCategory = some t)
    (hfind : cfg.categories.find? (fun c => c.comment == t) = none) :
    orderKey cfg t = 0 := by
  rw [orderKey, hfind, if_pos (by rw [ht])]

/-! ### Lemmas: assembling single-diagnostic runs -/

theorem filter_flatMap (p : Diagnostic → Bool) (g : String → List Diagnostic)
    (l : List String) :
    (l.flatMap g).filter p = l.flatMap (fun a => (g a).filter p) := by
  induction l with
  | nil => rfl
  | cons a l ih =>
    rw [List.flatMap_cons, List.flatMap_cons, List.filter_append, ih]

theorem flatMap_eq_single {g : String → List Diagnostic} {l : List String}
    {label : String} {x : Diagnostic} (hcount : l.count label = 1)
    (hother : ∀ lbl ∈ l, lbl ≠ label → g lbl = [])
    (hlabel : g label = [x]) : l.flatMap g = [x] := by
  induction l with
  | nil => simp [List.count_nil] at hcount
  | cons a l ih =>
    by_cases ha : a = label
    · subst ha
      rw [List.count_cons, if_pos (beq_self_eq_true a)] at hcount
      have hl0 : l.count a = 0 := by omega
      have hnotin : a ∉ l := List.count_eq_zero.mp hl0
      rw [List.flatMap_cons, hlabel]
      have hnil : l.flatMap g = [] := by
        rw [List.flatMap_eq_nil_iff]
        intro lbl hlbl
        exact hother lbl (List.mem_cons_of_mem a hlbl)
          (fun hc => hnotin (hc ▸ hlbl))
      rw [hnil, List.append_nil]
    · rw [List.flatMap_cons, hother a (List.mem_cons_self a l) ha,
        List.nil_append]
      refine ih ?_ (fun lbl hlbl hne => hother lbl (List.mem_cons_of_mem a hlbl) hne)
      rw [List.count_cons, if_neg (by rw [beq_iff_eq]; exact ha)] at hcount
      omega

/-- Does the diagnostic report a duplicate comment anchored at import `i`? -/
def isDupAnchoredAt (i : Nat) : Diagnostic → Bool
  | .duplicateComment j _ _ => j == i
  | _ => false

/-! ## Claim theorems -/

/-- Claim C1 counterexample: with a single category of order `-1`, the very
first import of a file — which has no categorized predecessors at all — is
reported as WrongOrder, because the ratchet starts at 0.  Under the claim as
stated (strictly less than the maximum order among *preceding* categorized
imports) no diagnostic may be emitted on an import with no predecessors. -/
theorem C1_order_law_cex :
    checkImportOrder cfgNeg fileNeg
      = [Diagnostic.wrongOrder 0 "n" "// Neg" 0 (-1)]
    ∧ fileNeg.take 0 = [] :=
  ⟨by decide, rfl⟩

/-- Claim C1 (amended): with enforceOrder on, a WrongOrder diagnostic with
expected order `e` and found order `o` is reported on import `m` iff `m`
resolves to a category of order `o`, `e` is the ratchet value — the maximum
of 0 and the orders of all categorized imports preceding `m` — and `o < e`.
The Scenario A part holds as stated: exactly one WrongOrder, on `lodash`,
with expected order 2 and found order 1. -/
theorem C1_order_law :
    (∀ (cfg : Config) (file : List ImportStmt) (m : Nat) (p c : String)
        (e o : Int),
      cfg.enforceOrder = true →
      (Diagnostic.wrongOrder m p c e o ∈ checkImportOrder cfg file
        ↔ ∃ st, file.get? m = some st ∧ st.path = p
            ∧ classifyStmt cfg st = some (c, o)
            ∧ e = ratchetAfter cfg 0 (file.take m) ∧ o < e))
    ∧ (runRule cfgA fileA).filter isWrongOrder
        = [Diagnostic.wrongOrder 1 "lodash" "// External" 2 1] := by
  constructor
  · intro cfg file m p c e o henf
    rw [checkImportOrder, if_pos henf, wrongOrder_mem_orderAux]
    constructor
    · rintro ⟨j, st, hm, hget, hp, hcl, he, ho⟩
      have hj : j = m := by omega
      subst hj
      exact ⟨st, hget, hp, hcl, he, ho⟩
    · rintro ⟨st, hget, hp, hcl, he, ho⟩
      exact ⟨m, st, by omega, hget, hp, hcl, he, ho⟩
  · decide

/-- Witness for C1 at Scenario A: the WrongOrder on `lodash` follows from
the amended order law applied at the concrete configuration. -/
theorem C1_order_law_witness :
    Diagnostic.wrongOrder 1 "lodash" "// External" 2 1
      ∈ checkImportOrder cfgA fileA :=
  (C1_order_law.1 cfgA fileA 1 "lodash" "// External" 2 1 rfl).mpr
    ⟨stmtLodash, by decide, rfl, by decide, by decide, by decide⟩

/-- Claim C2 counterexample: `typeImportsCategory` set to the empty string
is non-null, yet JavaScript truthiness skips the type branch, so a
type-only import from `react` is classified by its path into the external category. -/
theorem C2_type_override_cex :
    cfgEmptyType.typeImportsCategory = some ""
    ∧ getCategoryForImport cfgEmptyType "react" true = some ("// External", 1) :=
  ⟨rfl, by decide⟩

/-- Claim C2 (amended): whenever the configured typeImportsCategory is
non-null and non-empty, a type-only import classifies into the type
category — the returned label is the configured one — regardless of which
path patterns match. -/
theorem C2_type_override :
    ∀ (cfg : Config) (path t : String),
      cfg.typeImportsCategory = some t → t ≠ "" →
      ∃ o, getCategoryForImport cfg path true = some (t, o) :=
  fun cfg path t ht hne => getCategoryForImport_type cfg path t ht hne

/-- Witness for C2 at Scenario B: a type-only import from `react` resolves
to the type category even though `react` matches the external pattern. -/
theorem C2_type_override_witness :
    ∃ o, getCategoryForImport cfgB "react" true = some ("// Types", o) :=
  C2_type_override cfgB "react" "// Types" rfl (by decide)

/-- Claim C6 counterexample: the classification loop scans *all* configured
categories, including the one serving as the type category.  Here the sole
category is the type category itself; a non-type-only import from `react`
matches its patterns and is returned, whereas the claim (scan only non-type
categories) predicts none. -/
theorem C6_declaration_order_cex :
    cfgTypePat.typeImportsCategory = some "// Types"
    ∧ getCategoryForImport cfgTypePat "react" false = some ("// Types", 0) :=
  ⟨rfl, by decide⟩

/-- Claim C6 (amended): for every non-type-only import (and for
every import when the type branch cannot fire because typeImportsCategory is null
or empty), classification scans *all* categories in declaration order and
returns the first whose pattern set matches via logical OR, or none. -/
theorem C6_declaration_order :
    ∀ (cfg : Config) (path : String) (ito : Bool),
      (ito = false ∨ cfg.typeImportsCategory = none
        ∨ cfg.typeImportsCategory = some "") →
      getCategoryForImport cfg path ito = classifySpec cfg path := by
  intro cfg path ito h
  rw [classifySpec, ← findCategory_eq_classifySpec]
  rcases ht : cfg.typeImportsCategory with _ | t
  · simp [getCategoryForImport, ht]
  · rcases h with h | h | h
    · subst h
      simp [getCategoryForImport, ht]
    · rw [h] at ht
      cases ht
    · rw [h] at ht
      injection ht with ht
      subst ht
      simp [getCategoryForImport, h]

/-- Witness for C6: under Scenario A's configuration (no type category) the
relative import `./a` classifies by declaration-order scan. -/
theorem C6_declaration_order_witness :
    getCategoryForImport cfgA "./a" false = classifySpec cfgA "./a" :=
  C6_declaration_order cfgA "./a" false (Or.inr (Or.inl rfl))

/-- Claim C7 counterexample: the very first import of a file receives a
WrongOrder diagnostic when its category order is negative, because the
ratchet is initialized to 0 rather than to a neutral sentinel. -/
theorem C7_ratchet_cex :
    Diagnostic.wrongOrder 0 "n" "// Neg" 0 (-1) ∈ runRule cfgNeg fileNeg := by
  decide

/-- Claim C7 (amended): the ratchet never decreases — it dominates its
start value and is monotone along prefixes of the scan — and the very
first import in a file can receive a WrongOrder diagnostic only if its category
order is negative (orders ≥ 0 on the first import are always accepted,
since the ratchet starts at 0). -/
theorem C7_ratchet :
    (∀ (cfg : Config) (E : Int) (l : List ImportStmt), E ≤ ratchetAfter cfg E l)
    ∧ (∀ (cfg : Config) (E : Int) (l : List ImportStmt) (i j : Nat), i ≤ j →
        ratchetAfter cfg E (l.take i) ≤ ratchetAfter cfg E (l.take j))
    ∧ (∀ (cfg : Config) (file : List ImportStmt) (p c : String) (e o : Int),
        cfg.enforceOrder = true →
        Diagnostic.wrongOrder 0 p c e o ∈ checkImportOrder cfg file → o < 0) := by
  refine ⟨le_ratchetAfter,
    fun cfg E l i j hij => ratchetAfter_take_mono cfg E l hij, ?_⟩
  intro cfg file p c e o henf hmem
  rw [checkImportOrder, if_pos henf] at hmem
  obtain ⟨j, st, hm, hget, hp, hcl, he, ho⟩ :=
    (wrongOrder_mem_orderAux cfg 0 0 file 0 p c e o).mp hmem
  have hj : j = 0 := by omega
  subst hj
  simp only [List.take_zero, ratchetAfter] at he
  subst he
  exact ho

/-- Witness for C7: ratchet facts at Scenario A, and the negative-order
first import of the counterexample file indeed has order `-1 < 0`. -/
theorem C7_ratchet_witness :
    ((0 : Int) ≤ ratchetAfter cfgA 0 fileA)
    ∧ ratchetAfter cfgA 0 (fileA.take 0) ≤ ratchetAfter cfgA 0 (fileA.take 2)
    ∧ ((-1 : Int) < 0) :=
  ⟨C7_ratchet.1 cfgA 0 fileA,
   C7_ratchet.2.1 cfgA 0 fileA 0 2 (by omega),
   C7_ratchet.2.2 cfgNeg fileNeg "n" "// Neg" 0 (-1) rfl (by decide)⟩

/-- Claim C10: an import statement is treated as type-only iff its source
text begins with the characters `import`, whitespace, `type`, whitespace;
an `import type` statement is type-only, while a statement using an inline
type specifier is not. -/
theorem C10_textual_type_detection :
    (∀ st : ImportStmt, isTypeOnlyImport st = true ↔ beginsImportType st.text)
    ∧ isTypeOnlyImport stmtTypeOnly = true
    ∧ isTypeOnlyImport stmtInlineType = false := by
  refine ⟨fun st => importTypeTest_iff st.text, by decide, by decide⟩

/-- Claim C3: for every category group whose first import lacks a leading
comment matching the category label, exactly one MissingComment diagnostic
is emitted, anchored at that first import; and the fix — inserting the
rendered label plus a newline at the import's start offset — yields a file
byte-identical to one in which the comment had been present originally. -/
theorem C3_missing_comment :
    ∀ (cfg : Config) (file : List ImportStmt) (label : String) (first : Nat)
      (rest : List Nat),
      cfg.enforceComments = true →
      lookupGroup (groupImportsByCategory cfg file) label = first :: rest →
      (leadingAt file first).any (fun c => matchesLabel label (commentValue c))
        = false →
      (runRule cfg file).filter (isMissingFor label)
          = [Diagnostic.missingComment first label]
      ∧ insertTextBeforeRender file first (formatComment cfg label ++ "\n")
          = renderFile (appendLeadingAt (formatComment cfg label) first file) := by
  intro cfg file label first rest hec hlk hany
  have hmemg : first ∈ lookupGroup (groupImportsByCategory cfg file) label := by
    rw [hlk]
    exact List.mem_cons_self first rest
  obtain ⟨k0, st, o0, h0, hget0, hcl0⟩ :=
    (mem_groupIdxFrom cfg label 0 file first).mp
      (by rw [← lookupGroup_groupImports]; exact hmemg)
  have hget : file.get? first = some st := by
    rw [show first = k0 from by omega]
    exact hget0
  constructor
  · have hfne : file ≠ [] := by
      intro hc
      subst hc
      cases hget
    rw [runRule, if_neg hfne, List.filter_append]
    have horder : (checkImportOrder cfg file).filter (isMissingFor label) = [] := by
      rw [List.filter_eq_nil]
      intro d hd
      obtain ⟨i, p, c, e, o, hk⟩ := checkImportOrder_kind cfg file d hd
      subst hk
      simp [isMissingFor]
    rw [horder, List.nil_append, checkCategoryComments, if_pos hec, filter_flatMap]
    refine @flatMap_eq_single _ _ label _ ?_ ?_ ?_
    · rw [sortedKeysOf, count_sortByKey]
      exact List.count_eq_one_of_mem (keysOf_groupImports_nodup cfg file)
        (lookupGroup_ne_nil_mem_keys (by rw [hlk]; exact List.cons_ne_nil _ _))
    · intro lbl hl hne
      rw [List.filter_eq_nil]
      intro d hd
      rcases perCategory_kind file _ lbl d hd with ⟨i, hk⟩ | ⟨j, k, hk⟩ <;> subst hk
      · simp only [isMissingFor, Bool.not_eq_true]
        rw [Bool.eq_false_iff]
        intro hc
        exact hne (beq_iff_eq.mp hc)
      · simp [isMissingFor]
    · simp only [perCategory, hlk]
      rw [hany]
      rw [if_neg (by exact Bool.false_ne_true)]
      rw [List.filter_append]
      have hdups : (rest.flatMap (dupsAt file label)).filter (isMissingFor label)
          = [] := by
        rw [List.filter_eq_nil]
        intro d hd
        rw [List.mem_flatMap] at hd
        obtain ⟨j, _, hj⟩ := hd
        obtain ⟨k, hk⟩ := dupsAt_kind file label j d hj
        subst hk
        simp [isMissingFor]
      rw [hdups, List.append_nil]
      have hm : isMissingFor label (Diagnostic.missingComment first label) = true := by
        simp [isMissingFor]
      simp [List.filter_cons, hm]
  · exact insertTextBefore_eq_render file first st (formatComment cfg label) hget

/-- Witness for C3 at Scenario C: a lone uncommented external import gets
exactly one MissingComment whose fix is byte-identical to having written
the label line above it. -/
theorem C3_missing_comment_witness :
    (runRule cfgA fileExtOnly).filter (isMissingFor "// External")
        = [Diagnostic.missingComment 0 "// External"]
    ∧ insertTextBeforeRender fileExtOnly 0 (formatComment cfgA "// External" ++ "\n")
        = renderFile (appendLeadingAt (formatComment cfgA "// External") 0 fileExtOnly) :=
  C3_missing_comment cfgA fileExtOnly "// External" 0 [] rfl (by decide) (by decide)

/-- Claim C4: every leading comment of a non-first group member whose
normalized text equals the category label yields a DuplicateComment
diagnostic; no DuplicateComment is ever anchored at the group's
first import (its label comment is untouched); and the fix removes exactly the
comment's full line — its source range plus the trailing line break. -/
theorem C4_duplicate_comment :
    ∀ (cfg : Config) (file : List ImportStmt) (label : String) (first : Nat)
      (rest : List Nat) (j k : Nat) (st : ImportStmt) (c : String),
      cfg.enforceComments = true →
      lookupGroup (groupImportsByCategory cfg file) label = first :: rest →
      j ∈ rest →
      file.get? j = some st →
      st.leading.get? k = some c →
      matchesLabel label (commentValue c) = true →
      (Diagnostic.duplicateComment j k label ∈ runRule cfg file)
      ∧ ((runRule cfg file).all (fun d => !(isDupAnchoredAt first d)) = true)
      ∧ renderFile file
          = (renderFile (file.take j)
              ++ strJoin ((st.leading.take k).map renderComment))
            ++ (c ++ "\n")
            ++ (strJoin ((st.leading.drop (k + 1)).map renderComment)
              ++ st.text ++ "\n" ++ renderFile (file.drop (j + 1)))
      ∧ renderFile (removeLeadingAt k j file)
          = (renderFile (file.take j)
              ++ strJoin ((st.leading.take k).map renderComment))
            ++ (strJoin ((st.leading.drop (k + 1)).map renderComment)
              ++ st.text ++ "\n" ++ renderFile (file.drop (j + 1))) := by
  intro cfg file label first rest j k st c hec hlk hj hget hck hmatch
  have hlead : leadingAt file j = st.leading := by
    rw [leadingAt, hget]
  refine ⟨?_, ?_, (removeComment_eq_render file j k st c hget hck).1,
    (removeComment_eq_render file j k st c hget hck).2⟩
  · rw [dup_mem_runRule]
    refine (dup_mem_comments cfg file j k label).mpr
      ⟨hec, first, rest, hlk, hj, c, ?_, hmatch⟩
    rw [hlead]
    exact hck
  · rw [List.all_eq_true]
    intro d hd
    cases d with
    | missingComment i lbl => rfl
    | wrongOrder a b c' e o => rfl
    | duplicateComment j' k' lbl =>
      simp only [isDupAnchoredAt, Bool.not_eq_true']
      rw [Bool.eq_false_iff]
      intro hc
      have hj' : j' = first := beq_iff_eq.mp hc
      subst hj'
      rw [dup_mem_runRule] at hd
      obtain ⟨_, first', rest', hlk', hmem', _⟩ :=
        (dup_mem_comments cfg file j' k' lbl).mp hd
      have hfm : j' ∈ lookupGroup (groupImportsByCategory cfg file) label := by
        rw [hlk]
        exact List.mem_cons_self j' rest
      have hlbl : label = lbl := bucket_label_eq cfg file hfm
        (by rw [hlk']; exact List.mem_cons_of_mem first' hmem')
      subst hlbl
      rw [hlk] at hlk'
      injection hlk' with h1 h2
      subst h1
      subst h2
      exact head_notin_tail cfg file hlk hmem'

/-- Witness for C4 at Scenario D: of two label-commented external imports,
the second's comment is flagged as a duplicate and its removal deletes
exactly that comment line; the first import carries no duplicate report. -/
theorem C4_duplicate_comment_witness :
    (Diagnostic.duplicateComment 1 0 "// External" ∈ runRule cfgA fileDupExt)
    ∧ ((runRule cfgA fileDupExt).all (fun d => !(isDupAnchoredAt 0 d)) = true)
    ∧ renderFile fileDupExt
        = (renderFile (fileDupExt.take 1)
            ++ strJoin ((((⟨["// External"], "axios", "import a from z"⟩ :
                ImportStmt)).leading.take 0).map renderComment))
          ++ ("// External" ++ "\n")
          ++ (strJoin ((((⟨["// External"], "axios", "import a from z"⟩ :
                ImportStmt)).leading.drop 1).map renderComment)
            ++ (⟨["// External"], "axios", "import a from z"⟩ :
                ImportStmt).text ++ "\n" ++ renderFile (fileDupExt.drop 2))
    ∧ renderFile (removeLeadingAt 0 1 fileDupExt)
        = (renderFile (fileDupExt.take 1)
            ++ strJoin ((((⟨["// External"], "axios", "import a from z"⟩ :
                ImportStmt)).leading.take 0).map renderComment))
          ++ (strJoin ((((⟨["// External"], "axios", "import a from z"⟩ :
                ImportStmt)).leading.drop 1).map renderComment)
            ++ (⟨["// External"], "axios", "import a from z"⟩ :
                ImportStmt).text ++ "\n" ++ renderFile (fileDupExt.drop 2)) :=
  C4_duplicate_comment cfgA fileDupExt "// External" 0 [1] 1 0
    ⟨["// External"], "axios", "import a from z"⟩ "// External"
    rfl (by decide) (by decide) (by decide) (by decide) (by decide)

/-- Claim C5 counterexample: WrongOrder diagnostics carry no fix, so after
applying every emitted fix once (the two comment insertions) and re-running,
the engine still reports the order violation — the diagnostic list is not
empty. -/
theorem C5_idempotence_cex :
    runRule cfgA (applyAllFixes cfgA fileA)
      = [Diagnostic.wrongOrder 1 "lodash" "// External" 2 1] := by
  decide

/-- Claim C5 (amended): applying every emitted fix once and re-running the
engine yields exactly the original WrongOrder diagnostics and nothing else;
in particular zero MissingComment and zero DuplicateComment diagnostics.
WrongOrder reports carry no fix and may persist. -/
theorem C5_idempotence :
    (∀ (cfg : Config) (file : List ImportStmt),
      runRule cfg (applyAllFixes cfg file) = checkImportOrder cfg file)
    ∧ (∀ (cfg : Config) (file : List ImportStmt) (d : Diagnostic),
        d ∈ runRule cfg (applyAllFixes cfg file) →
        ∃ i p c e o, d = Diagnostic.wrongOrder i p c e o) := by
  have h1 : ∀ (cfg : Config) (file : List ImportStmt),
      runRule cfg (applyAllFixes cfg file) = checkImportOrder cfg file := by
    intro cfg file
    by_cases hnil : file = []
    · subst hnil
      rw [show applyAllFixes cfg [] = [] from rfl, runRule, if_pos rfl,
        checkImportOrder]
      by_cases h : cfg.enforceOrder
      · rw [if_pos h]
        rfl
      · rw [if_neg h]
    · have hfnil : applyAllFixes cfg file ≠ [] := by
        intro hc
        rw [applyAllFixes] at hc
        exact hnil ((applyFixesAux_eq_nil cfg (runRule cfg file) 0 file).mp hc)
      rw [runRule, if_neg hfnil, checkCategoryComments_applyAllFixes,
        List.append_nil, checkImportOrder_applyAllFixes]
  refine ⟨h1, ?_⟩
  intro cfg file d hd
  rw [h1 cfg file] at hd
  exact checkImportOrder_kind cfg file d hd

/-- Witness for C5: at Scenario A the fixed file re-audits to exactly the
original WrongOrder report, which is of WrongOrder kind. -/
theorem C5_idempotence_witness :
    (runRule cfgA (applyAllFixes cfgA fileA) = checkImportOrder cfgA fileA)
    ∧ ∃ i p c e o, Diagnostic.wrongOrder 1 "lodash" "// External" 2 1
        = Diagnostic.wrongOrder i p c e o :=
  ⟨C5_idempotence.1 cfgA fileA,
   C5_idempotence.2 cfgA fileA (Diagnostic.wrongOrder 1 "lodash" "// External" 2 1)
     (by decide)⟩

/-- Claim C8: an import resolving to no category receives no diagnostic of
any kind, appears in no category group, and leaves the order ratchet
unchanged as the scan passes over it. -/
theorem C8_unclassified_excluded :
    ∀ (cfg : Config) (file : List ImportStmt) (i : Nat) (st : ImportStmt),
      file.get? i = some st →
      classifyStmt cfg st = none →
      (∀ d ∈ runRule cfg file, anchorIdx d ≠ i)
      ∧ (∀ label idxs, (label, idxs) ∈ groupImportsByCategory cfg file → i ∉ idxs)
      ∧ (∀ (E : Int) (n : Nat) (l : List ImportStmt),
          orderAux cfg E n (st :: l) = orderAux cfg E (n + 1) l
          ∧ ratchetAfter cfg E (st :: l) = ratchetAfter cfg E l) := by
  intro cfg file i st hget hcl
  have hnotgrp : ∀ lbl, i ∉ lookupGroup (groupImportsByCategory cfg file) lbl := by
    intro lbl hmem
    rw [lookupGroup_groupImports] at hmem
    obtain ⟨k0, st', o0, hi0, hget0, hcl0⟩ :=
      (mem_groupIdxFrom cfg lbl 0 file i).mp hmem
    have : file.get? i = some st' := by
      rw [show i = k0 from by omega]
      exact hget0
    rw [hget] at this
    injection this with hst
    subst hst
    rw [hcl] at hcl0
    cases hcl0
  refine ⟨?_, ?_, ?_⟩
  · intro d hd
    rw [runRule] at hd
    by_cases hnil : file = []
    · rw [if_pos hnil] at hd
      exact absurd hd (List.not_mem_nil d)
    · rw [if_neg hnil] at hd
      rcases List.mem_append.mp hd with hd | hd
      · obtain ⟨m, p, c, e, o, hk⟩ := checkImportOrder_kind cfg file d hd
        subst hk
        rw [checkImportOrder] at hd
        by_cases henf : cfg.enforceOrder
        · rw [if_pos henf] at hd
          obtain ⟨j, st', hm, hget', hp, hcl', he', ho'⟩ :=
            (wrongOrder_mem_orderAux cfg 0 0 file m p c e o).mp hd
          intro hmi
          rw [anchorIdx] at hmi
          have hji : j = i := by omega
          subst hji
          rw [hget] at hget'
          injection hget' with hst
          subst hst
          rw [hcl] at hcl'
          cases hcl'
        · rw [if_neg henf] at hd
          exact absurd hd (List.not_mem_nil _)
      · rcases comments_kind cfg file d hd with ⟨i', lbl, hk⟩ | ⟨j', k', lbl, hk⟩
        · subst hk
          obtain ⟨_, rest, hlk, _⟩ := (missing_mem_comments cfg file i' lbl).mp hd
          intro hmi
          rw [anchorIdx] at hmi
          subst hmi
          exact hnotgrp lbl (by rw [hlk]; exact List.mem_cons_self i' rest)
        · subst hk
          obtain ⟨_, first, rest, hlk, hmem, _⟩ :=
            (dup_mem_comments cfg file j' k' lbl).mp hd
          intro hmi
          rw [anchorIdx] at hmi
          subst hmi
          exact hnotgrp lbl (by rw [hlk]; exact List.mem_cons_of_mem first hmem)
  · intro label idxs hmem hin
    have : lookupGroup (groupImportsByCategory cfg file) label = idxs :=
      lookupGroup_of_entry (keysOf_groupImports_nodup cfg file) hmem
    exact hnotgrp label (this ▸ hin)
  · intro E n l
    exact ⟨orderAux_cons_none cfg E n l hcl, ratchetAfter_cons_none cfg E l hcl⟩

/-- Witness for C8 at Scenario E: the `~x` import of the mixed file matches
no pattern; the sole diagnostic (the missing external comment on import 0)
is not anchored at it, it sits in no bucket, and the ratchet passes over
it untouched. -/
theorem C8_unclassified_excluded_witness :
    (anchorIdx (Diagnostic.missingComment 0 "// External") ≠ 1)
    ∧ ((1 : Nat) ∉ ([0] : List Nat))
    ∧ (orderAux cfgA 0 0 [(⟨[], "~x", "import u from w"⟩ : ImportStmt)]
          = orderAux cfgA 0 1 []
        ∧ ratchetAfter cfgA 0 [(⟨[], "~x", "import u from w"⟩ : ImportStmt)]
          = ratchetAfter cfgA 0 []) :=
  ⟨(C8_unclassified_excluded cfgA fileWithUnmatched 1
      ⟨[], "~x", "import u from w"⟩ (by decide) (by decide)).1
      (Diagnostic.missingComment 0 "// External") (by decide),
   (C8_unclassified_excluded cfgA fileWithUnmatched 1
      ⟨[], "~x", "import u from w"⟩ (by decide) (by decide)).2.1
      "// External" [0] (by decide),
   (C8_unclassified_excluded cfgA fileWithUnmatched 1
      ⟨[], "~x", "import u from w"⟩ (by decide) (by decide)).2.2 0 0 []⟩

/-- Claim C9 counterexample, in three parts.  First, with a category of
order `-1` present, the synthetic type category (order 0) does *not* sort
first in the comment auditor's display order.  Second, a configured but
empty typeImportsCategory label is skipped by truthiness, so classification
returns none rather than a synthetic category.  Third, with order
enforcement disabled no WrongOrder is reported even though a
categorized import of positive order precedes the type-only import. -/
theorem C9_synthetic_type_cex :
    (sortedKeysOf cfgNegType fileNegType = ["// Neg", "// Types"]
      ∧ classifyStmt cfgNegType
          ⟨[], "x", "import type \x7bX\x7d from x"⟩ = some ("// Types", 0))
    ∧ (cfgEmptyType.typeImportsCategory = some ""
      ∧ getCategoryForImport cfgEmptyType "~x" true = none)
    ∧ (classifyStmt cfgBNoOrder ⟨[], "lodash", "import l from y"⟩
          = some ("// External", 1)
      ∧ checkImportOrder cfgBNoOrder fileExtType = []) := by
  refine ⟨⟨by decide, by decide⟩, ⟨rfl, by decide⟩, ⟨by decide, by decide⟩⟩

/-- Claim C9 (amended): when the configured typeImportsCategory label is
non-empty and equals no category's comment, a type-only import classifies
to a synthetic category with that label and order 0; in the comment
auditor's display order that label sorts before every present category of
strictly positive order; and with order enforcement on, such a
type-only import receives a WrongOrder diagnostic whenever a categorized import of
positive order precedes it. -/
theorem C9_synthetic_type :
    (∀ (cfg : Config) (path t : String),
      cfg.typeImportsCategory = some t → t ≠ "" →
      cfg.categories.find? (fun c => c.comment == t) = none →
      getCategoryForImport cfg path true = some (t, 0))
    ∧ (∀ (cfg : Config) (file : List ImportStmt) (t lbl : String) (i j : Nat),
        cfg.typeImportsCategory = some t →
        cfg.categories.find? (fun c => c.comment == t) = none →
        (sortedKeysOf cfg file).get? i = some t →
        (sortedKeysOf cfg file).get? j = some lbl →
        0 < orderKey cfg lbl → i < j)
    ∧ (∀ (cfg : Config) (file : List ImportStmt) (t : String) (i j : Nat)
        (stj sti : ImportStmt) (c : String) (o : Int),
        cfg.enforceOrder = true →
        cfg.typeImportsCategory = some t → t ≠ "" →
        cfg.categories.find? (fun c => c.comment == t) = none →
        j < i → file.get? j = some stj → classifyStmt cfg stj = some (c, o) →
        0 < o → file.get? i = some sti → isTypeOnlyImport sti = true →
        ∃ e, Diagnostic.wrongOrder i sti.path t e 0 ∈ checkImportOrder cfg file
          ∧ 0 < e) := by
  refine ⟨fun cfg path t ht hne hf =>
    getCategoryForImport_type_fresh cfg path t ht hne hf, ?_, ?_⟩
  · intro cfg file t lbl i j ht hf hi hj hkey
    by_contra hij
    have hsorted := sortByKey_sorted (orderKey cfg)
      (keysOf (groupImportsByCategory cfg file))
    rw [List.pairwise_iff_get] at hsorted
    rw [sortedKeysOf] at hi hj
    obtain ⟨hilen, hival⟩ := List.get?_eq_some.mp hi
    obtain ⟨hjlen, hjval⟩ := List.get?_eq_some.mp hj
    have hkt : orderKey cfg t = 0 := orderKey_type cfg t ht hf
    rcases Nat.lt_or_ge j i with hji | hji
    · have hle := hsorted ⟨j, hjlen⟩ ⟨i, hilen⟩ hji
      rw [hjval, hival, hkt] at hle
      omega
    · have hji' : j = i := by omega
      subst hji'
      have hteq : t = lbl := by
        rw [← hival, ← hjval]
      rw [← hteq, hkt] at hkey
      omega
  · intro cfg file t i j stj sti c o henf ht hne hf hji hgetj hclj ho hgeti htyp
    have hclti : classifyStmt cfg sti = some (t, 0) := by
      rw [classifyStmt, htyp]
      exact getCategoryForImport_type_fresh cfg sti.path t ht hne hf
    have he : (0 : Int) < ratchetAfter cfg 0 (file.take i) :=
      lt_of_lt_of_le ho (order_le_ratchetAfter cfg 0
        (List.get?_mem (show (file.take i).get? j = some stj from by
          rw [List.get?_take hji]; exact hgetj)) hclj)
    refine ⟨ratchetAfter cfg 0 (file.take i), ?_, he⟩
    rw [checkImportOrder, if_pos henf]
    exact (wrongOrder_mem_orderAux cfg 0 0 file i sti.path t
      (ratchetAfter cfg 0 (file.take i)) 0).mpr
      ⟨i, sti, by omega, hgeti, rfl, hclti, rfl, he⟩

/-- Witness for C9: with Scenario B's configuration the synthetic type
category classifies `react`, sorts before the external category, and the
type-only import preceded by an external import is flagged. -/
theorem C9_synthetic_type_witness :
    (getCategoryForImport cfgB "react" true = some ("// Types", 0))
    ∧ ((0 : Nat) < 1)
    ∧ (∃ e, Diagnostic.wrongOrder 1
          (stmtTypeOnlyX.path) "// Types" e 0
          ∈ checkImportOrder cfgB fileExtType ∧ 0 < e) :=
  ⟨C9_synthetic_type.1 cfgB "react" "// Types" rfl (by decide) rfl,
   C9_synthetic_type.2.1 cfgB fileExtType "// Types" "// External" 0 1
     rfl rfl (by decide) (by decide) (by decide),
   C9_synthetic_type.2.2 cfgB fileExtType "// Types" 1 0
     ⟨[], "lodash", "import l from y"⟩ stmtTypeOnlyX "// External" 1
     rfl rfl (by decide) rfl (by decide) (by decide) (by decide)
     (by decide) (by decide) (by decide)⟩

end ImportCategory
